import Mathlib

set_option maxHeartbeats 1000000
set_option linter.unusedSectionVars false
set_option linter.unreachableTactic false
set_option linter.unusedTactic false
set_option linter.unnecessarySeqFocus false

/-!
Verification of the windrake repository: a solver for the real continuous
Lyapunov matrix equation  Aᵀ·X + X·A = −Q.

The repository ships the test suite of the solver; the solver itself is an
upstream translation unit that is not part of the sources at hand, so the
whole numerical core below is modelled from the specification (a
Bartels-Stewart style block reduction with 1-by-1 and 2-by-2 closed-form
kernels).  Floating-point tolerances of the implementation are idealised to
exact zero tests over an arbitrary field with decidable equality, so the
development is executable over ℚ and statable over ℝ.

Matrices are embedded untyped, as total functions over ℕ × ℕ with the
dimensions carried separately: this matches the dynamically sized dense
matrices of the implementation and keeps block decomposition free of
dependent index arithmetic.  All statements about a matrix of size m × n
quantify over the region below m and n only.
-/

namespace Windrake

open scoped Matrix

/-- Error taxonomy of the solver facade, from the specification:
InvalidArgument for shape violations, NumericalFailure for a failed external
Schur decomposition, SingularSystem for a violated spectral uniqueness
condition. -/
inductive LyapErr : Type where
  | InvalidArgument : LyapErr
  | NumericalFailure : LyapErr
  | SingularSystem : LyapErr
deriving DecidableEq, Repr

/-- Dense, dynamically sized matrix content: a total function on indices.
Entries outside the region of interest are unconstrained. -/
def Mat (K : Type) : Type := ℕ → ℕ → K

variable {K : Type} [Field K] [DecidableEq K]

/-- The all-zero matrix content. -/
def matZero : Mat K := fun _ _ => 0

/-- Identity matrix content. -/
def matId : Mat K := fun i j => if i = j then 1 else 0

/-- Transpose. -/
def matTrans (A : Mat K) : Mat K := fun i j => A j i

/-- Entrywise sum. -/
def matAdd (A B : Mat K) : Mat K := fun i j => A i j + B i j

/-- Entrywise negation. -/
def matNeg (A : Mat K) : Mat K := fun i j => -(A i j)

/-- Matrix product with explicit inner dimension p. -/
def matMul (p : ℕ) (A B : Mat K) : Mat K :=
  fun i j => ∑ t in Finset.range p, A i t * B t j

/-- The sub-block of A starting at row a and column b. -/
def matShift (a b : ℕ) (A : Mat K) : Mat K := fun i j => A (a + i) (b + j)

/-- A 1-by-1 matrix literal. -/
def m1 (x : K) : Mat K := fun i j => if i = 0 ∧ j = 0 then x else 0

/-- A 2-by-2 matrix literal. -/
def m2 (a b c d : K) : Mat K := fun i j =>
  if i = 0 then (if j = 0 then a else if j = 1 then b else 0)
  else if i = 1 then (if j = 0 then c else if j = 1 then d else 0)
  else 0

/-- A 3-by-3 matrix literal. -/
def m3 (a b c d e f g h i : K) : Mat K := fun r s =>
  if r = 0 then (if s = 0 then a else if s = 1 then b else if s = 2 then c else 0)
  else if r = 1 then (if s = 0 then d else if s = 1 then e else if s = 2 then f else 0)
  else if r = 2 then (if s = 0 then g else if s = 1 then h else if s = 2 then i else 0)
  else 0

/-- 2-by-2 determinant of scalars. -/
def det2 (a b c d : K) : K := a * d - b * c

/-- 3-by-3 determinant of scalars, first-row cofactor expansion. -/
def det3 (a b c d e f g h i : K) : K :=
  a * (e * i - f * h) - b * (d * i - f * g) + c * (d * h - e * g)

/-- 4-by-4 determinant of scalars, first-row cofactor expansion. -/
def det4 (a00 a01 a02 a03 a10 a11 a12 a13 a20 a21 a22 a23 a30 a31 a32 a33 : K) : K :=
  a00 * det3 a11 a12 a13 a21 a22 a23 a31 a32 a33
  - a01 * det3 a10 a12 a13 a20 a22 a23 a30 a32 a33
  + a02 * det3 a10 a11 a13 a20 a21 a23 a30 a31 a33
  - a03 * det3 a10 a11 a12 a20 a21 a22 a30 a31 a32

/-- Equality of two matrix contents on an m × n region. -/
def EqOn (m n : ℕ) (A B : Mat K) : Prop :=
  ∀ i, i < m → ∀ j, j < n → A i j = B i j

/-- Symmetry of a matrix content on the m × m region. -/
def SymmOn (m : ℕ) (A : Mat K) : Prop :=
  ∀ i, i < m → ∀ j, j < m → A i j = A j i

/-- Real quasi-upper-triangular structure on the m × m region, as produced by
a real Schur decomposition: everything below the first sub-diagonal vanishes,
and no two consecutive sub-diagonal entries are both nonzero (diagonal blocks
have size 1 or 2). -/
def quasiTri (m : ℕ) (S : Mat K) : Prop :=
  (∀ i, i < m → ∀ j, j < m → j + 1 < i → S i j = 0) ∧
  (∀ i, i < m → i + 2 < m → S (i + 1) i ≠ 0 → S (i + 2) (i + 1) = 0)

instance instDecEqOn (m n : ℕ) (A B : Mat K) : Decidable (EqOn m n A B) :=
  inferInstanceAs (Decidable (∀ i, i < m → ∀ j, j < n → A i j = B i j))

instance instDecSymmOn (m : ℕ) (A : Mat K) : Decidable (SymmOn m A) :=
  inferInstanceAs (Decidable (∀ i, i < m → ∀ j, j < m → A i j = A j i))

instance instDecQuasiTri (m : ℕ) (S : Mat K) : Decidable (quasiTri m S) :=
  inferInstanceAs (Decidable ((∀ i, i < m → ∀ j, j < m → j + 1 < i → S i j = 0) ∧
    (∀ i, i < m → i + 2 < m → S (i + 1) i ≠ 0 → S (i + 2) (i + 1) = 0)))

/-- The 1-by-1 diagonal kernel of the block solver (modelled from the spec:
the scalar equation 2·t·x = −r, failing with SingularSystem when 2·t
vanishes; the implementation is internal::Solve1By1RealContinuousLyapunovEquation,
whose translation unit is not among the sources). -/
def Solve1By1RealContinuousLyapunovEquation (A Q : Mat K) : Except LyapErr (Mat K) :=
  if 2 * A 0 0 = 0 then .error .SingularSystem
  else .ok (m1 (-(Q 0 0) / (2 * A 0 0)))

/-- The 2-by-2 diagonal kernel of the block solver (modelled from the spec:
the symmetric unknown X = [x11, x12; x12, x22] of Aᵀ·X + X·A = −R is obtained
from the equivalent 3-by-3 linear system over (x11, x12, x22) built from the
(0,0), (0,1) and (1,1) component equations — the repository's test feeds NaN
in R(1,0), so only those three right-hand-side entries may be read — failing
with SingularSystem when that system is singular; the implementation is
internal::Solve2By2RealContinuousLyapunovEquation, not among the sources). -/
def Solve2By2RealContinuousLyapunovEquation (A Q : Mat K) : Except LyapErr (Mat K) :=
  let a := A 0 0
  let b := A 0 1
  let c := A 1 0
  let d := A 1 1
  let r1 := -(Q 0 0)
  let r2 := -(Q 0 1)
  let r3 := -(Q 1 1)
  let Δ := det3 (2*a) (2*c) 0 b (a+d) c 0 (2*b) (2*d)
  if Δ = 0 then .error .SingularSystem
  else
    .ok (m2 (det3 r1 (2*c) 0 r2 (a+d) c r3 (2*b) (2*d) / Δ)
            (det3 (2*a) r1 0 b r2 c 0 r3 (2*d) / Δ)
            (det3 (2*a) r1 0 b r2 c 0 r3 (2*d) / Δ)
            (det3 (2*a) (2*c) r1 b (a+d) r2 0 (2*b) r3 / Δ))

/-- Small Sylvester kernel of the back-substitution: solves Bᵀ·Y + Y·C = R
for the b1 × b2 unknown Y, where B is the leading b1 × b1 block of its first
argument and C is b2 × b2, with b1, b2 ∈ {1, 2}; each case is a closed-form
Cramer solve of the 1-, 2- or 4-dimensional linear system, failing with
SingularSystem when it is singular (modelled from the spec, step 4 of the
block solver). -/
def sylvK (b1 b2 : ℕ) (B C R : Mat K) : Except LyapErr (Mat K) :=
  match b1, b2 with
  | 1, 1 =>
    let Δ := B 0 0 + C 0 0
    if Δ = 0 then .error .SingularSystem else .ok (m1 (R 0 0 / Δ))
  | 1, 2 =>
    -- row unknown (y0, y1):  y0·(e + C00) + y1·C10 = R00,  y0·C01 + y1·(e + C11) = R01
    let e := B 0 0
    let Δ := det2 (e + C 0 0) (C 1 0) (C 0 1) (e + C 1 1)
    if Δ = 0 then .error .SingularSystem
    else .ok (m2 (det2 (R 0 0) (C 1 0) (R 0 1) (e + C 1 1) / Δ)
                 (det2 (e + C 0 0) (R 0 0) (C 0 1) (R 0 1) / Δ) 0 0)
  | 2, 1 =>
    -- column unknown (y0, y1):  (B00 + c)·y0 + B10·y1 = R00,  B01·y0 + (B11 + c)·y1 = R10
    let c := C 0 0
    let Δ := det2 (B 0 0 + c) (B 1 0) (B 0 1) (B 1 1 + c)
    if Δ = 0 then .error .SingularSystem
    else .ok (m2 (det2 (R 0 0) (B 1 0) (R 1 0) (B 1 1 + c) / Δ) 0
                 (det2 (B 0 0 + c) (R 0 0) (B 0 1) (R 1 0) / Δ) 0)
  | 2, 2 =>
    -- unknowns (y00, y01, y10, y11), equations at (0,0), (0,1), (1,0), (1,1)
    let Δ := det4 (B 0 0 + C 0 0) (C 1 0) (B 1 0) 0
                  (C 0 1) (B 0 0 + C 1 1) 0 (B 1 0)
                  (B 0 1) 0 (B 1 1 + C 0 0) (C 1 0)
                  0 (B 0 1) (C 0 1) (B 1 1 + C 1 1)
    if Δ = 0 then .error .SingularSystem
    else
      .ok (m2 (det4 (R 0 0) (C 1 0) (B 1 0) 0
                    (R 0 1) (B 0 0 + C 1 1) 0 (B 1 0)
                    (R 1 0) 0 (B 1 1 + C 0 0) (C 1 0)
                    (R 1 1) (B 0 1) (C 0 1) (B 1 1 + C 1 1) / Δ)
              (det4 (B 0 0 + C 0 0) (R 0 0) (B 1 0) 0
                    (C 0 1) (R 0 1) 0 (B 1 0)
                    (B 0 1) (R 1 0) (B 1 1 + C 0 0) (C 1 0)
                    0 (R 1 1) (C 0 1) (B 1 1 + C 1 1) / Δ)
              (det4 (B 0 0 + C 0 0) (C 1 0) (R 0 0) 0
                    (C 0 1) (B 0 0 + C 1 1) (R 0 1) (B 1 0)
                    (B 0 1) 0 (R 1 0) (C 1 0)
                    0 (B 0 1) (R 1 1) (B 1 1 + C 1 1) / Δ)
              (det4 (B 0 0 + C 0 0) (C 1 0) (B 1 0) (R 0 0)
                    (C 0 1) (B 0 0 + C 1 1) 0 (R 0 1)
                    (B 0 1) 0 (B 1 1 + C 0 0) (R 1 0)
                    0 (B 0 1) (C 0 1) (R 1 1) / Δ))
  | _, _ => .error .SingularSystem

/-- Right-hand side of the off-diagonal (coupling) solve after peeling the
leading b × b diagonal block: −(Q-block + corrections from the already solved
diagonal block), see step 4 of the block solver in the spec. -/
def offRHS (b : ℕ) (S Q x1 : Mat K) : Mat K :=
  fun i j => -(Q (b + i) j + ∑ t in Finset.range b, S t (b + i) * x1 t j)

/-- Corrected right-hand side for the trailing subproblem after peeling the
leading b × b diagonal block and its off-diagonal coupling Y. -/
def recQ (b : ℕ) (S Q Y : Mat K) : Mat K :=
  fun i j => Q (b + i) (b + j) + (∑ t in Finset.range b, S t (b + i) * Y j t)
    + (∑ t in Finset.range b, Y i t * S t (b + j))

/-- Assembles the solved blocks: leading diagonal block x1, off-diagonal
coupling Y (below the diagonal) and its transpose (above), trailing block X1;
this enforces symmetry of the assembled solution by construction. -/
def asm (b : ℕ) (x1 Y X1 : Mat K) : Mat K := fun i j =>
  if i < b then (if j < b then x1 i j else Y (j - b) i)
  else (if j < b then Y (i - b) j else X1 (i - b) (j - b))

/-- Off-diagonal column solver: given the trailing quasi-triangular block S1
(of size m1), the leading diagonal block C (of size b2) and a right-hand side
R, solves S1ᵀ·Y + Y·C = R for the m1 × b2 coupling block Y by peeling
diagonal blocks of S1 from the top and calling the small Sylvester kernel,
failing with SingularSystem as soon as a kernel is singular. -/
def sylvCol : ℕ → ℕ → Mat K → Mat K → Mat K → Except LyapErr (Mat K)
  | 0, _, _, _, _ => .ok matZero
  | 1, b2, S1, C, R => sylvK 1 b2 S1 C R
  | (m1 + 2), b2, S1, C, R =>
    if S1 1 0 = 0 then do
      let Y1 ← sylvK 1 b2 S1 C R
      let Y2 ← sylvCol (m1 + 1) b2 (matShift 1 1 S1) C
        (fun i j => R (1 + i) j - ∑ t in Finset.range 1, S1 t (1 + i) * Y1 t j)
      .ok (fun i j => if i < 1 then Y1 i j else Y2 (i - 1) j)
    else do
      let Y1 ← sylvK 2 b2 S1 C R
      let Y2 ← sylvCol m1 b2 (matShift 2 2 S1) C
        (fun i j => R (2 + i) j - ∑ t in Finset.range 2, S1 t (2 + i) * Y1 t j)
      .ok (fun i j => if i < 2 then Y1 i j else Y2 (i - 2) j)

/-- Block back-substitution solver for the reduced (quasi-upper-triangular)
equation Sᵀ·X + X·S = −Q on the m × m region (modelled from the spec, §4.3).
The leading diagonal block decouples for an upper-triangular reduction, so
blocks are processed from the top-left: solve the leading 1-by-1 or 2-by-2
diagonal block in closed form, then the off-diagonal coupling column, then
recurse on the corrected trailing subproblem; the first singular kernel
aborts the whole solve. -/
def blockSolve : ℕ → Mat K → Mat K → Except LyapErr (Mat K)
  | 0, _, _ => .ok matZero
  | 1, S, Q => Solve1By1RealContinuousLyapunovEquation S Q
  | (m + 2), S, Q =>
    if S 1 0 = 0 then do
      let x1 ← Solve1By1RealContinuousLyapunovEquation S Q
      let Y ← sylvCol (m + 1) 1 (matShift 1 1 S) S (offRHS 1 S Q x1)
      let X1 ← blockSolve (m + 1) (matShift 1 1 S) (recQ 1 S Q Y)
      .ok (asm 1 x1 Y X1)
    else do
      let x1 ← Solve2By2RealContinuousLyapunovEquation S Q
      let Y ← sylvCol m 2 (matShift 2 2 S) S (offRHS 2 S Q x1)
      let X1 ← blockSolve m (matShift 2 2 S) (recQ 2 S Q Y)
      .ok (asm 2 x1 Y X1)

/-- A dynamically sized dense matrix: dimensions plus content. -/
structure DMat (K : Type) : Type where
  rows : ℕ
  cols : ℕ
  entry : Mat K

/-- The solver facade, modelled from the spec (§4.4): validate shapes first
(InvalidArgument), obtain the real Schur decomposition A = U·T·Uᵀ from the
external capability dec (its failure is NumericalFailure), transform the
right-hand side to Uᵀ·Q·U, block-solve the reduced equation, and transform
the solution back to the original basis as U·X·Uᵀ.  No partial result is
produced on any failure. -/
def RealContinuousLyapunovEquation (dec : ℕ → Mat K → Option (Mat K × Mat K))
    (A Q : DMat K) : Except LyapErr (DMat K) :=
  if A.rows = A.cols ∧ Q.rows = Q.cols ∧ A.rows = Q.rows then
    match dec A.rows A.entry with
    | none => .error .NumericalFailure
    | some (T, U) =>
      match blockSolve A.rows T (matMul A.rows (matTrans U) (matMul A.rows Q.entry U)) with
      | .error e => .error e
      | .ok Xr => .ok ⟨A.rows, A.rows, matMul A.rows U (matMul A.rows Xr (matTrans U))⟩
  else .error .InvalidArgument

/-- Entry (i, j) of a kernel result, or none on failure. -/
def oEntry (e : Except LyapErr (Mat K)) (i j : ℕ) : Option K :=
  match e with
  | .ok X => some (X i j)
  | .error _ => none

/-- Entry (i, j) of a facade result, or none on failure. -/
def dEntry (e : Except LyapErr (DMat K)) (i j : ℕ) : Option K :=
  match e with
  | .ok X => some (X.entry i j)
  | .error _ => none

/-- A Schur capability that returns its input unchanged together with the
identity transform: a valid decomposition exactly when the input is already
quasi-upper-triangular, as in the concrete test instances below. -/
def decId : ℕ → Mat K → Option (Mat K × Mat K) := fun _ M => some (M, matId)

section TempDirectory

/-!
Model of drake::temp_directory() (src/unnamed/part_001).  The process
environment and the filesystem are oracles supplied as an explicit record;
paths are strings modelled as character lists.  DRAKE_THROW_UNLESS failures
surface as an error value.
-/

/-- The single failure mode of temp_directory: a DRAKE_THROW_UNLESS throw
(mkdtemp returned null, or the chosen path is not a directory). -/
inductive TempErr : Type where
  | ThrowFailed : TempErr
deriving DecidableEq, Repr

/-- Environment and filesystem oracles consumed by temp_directory. -/
structure TempFsEnv : Type where
  testTmpdir : Option (List Char)
  tmpdirVar : Option (List Char)
  mkdtempRes : List Char → Option (List Char)
  isDir : List Char → Bool

/-- The final step of temp_directory: if result.back() is a slash, pop it —
note the source pops at most one character. -/
def stripTrailingSlash (s : List Char) : List Char :=
  if s.getLast? = some '/' then s.dropLast else s

/-- Shallow embedding of drake::temp_directory(): TEST_TMPDIR, when set,
is used directly (taking precedence over TMPDIR and /tmp, which only feed
the mkdtemp template); the chosen path must name a directory, and a single
trailing slash is stripped from the returned string. -/
def temp_directory (env : TempFsEnv) : Except TempErr (List Char) :=
  match env.testTmpdir with
  | some v => if env.isDir v then .ok (stripTrailingSlash v) else .error .ThrowFailed
  | none =>
    let base := env.tmpdirVar.getD ("/tmp".toList)
    match env.mkdtempRes (base ++ ('/' :: "robotlocomotion_drake_XXXXXX".toList)) with
    | none => .error .ThrowFailed
    | some d => if env.isDir d then .ok (stripTrailingSlash d) else .error .ThrowFailed

/-- A path ends in a slash. -/
def endsSlash (s : List Char) : Prop := s.getLast? = some '/'

/-- A path ends in two slashes. -/
def endsTwoSlash (s : List Char) : Prop :=
  s.getLast? = some '/' ∧ s.dropLast.getLast? = some '/'

instance instDecEndsSlash (s : List Char) : Decidable (endsSlash s) :=
  inferInstanceAs (Decidable (s.getLast? = some '/'))

instance instDecEndsTwoSlash (s : List Char) : Decidable (endsTwoSlash s) :=
  inferInstanceAs (Decidable (s.getLast? = some '/' ∧ s.dropLast.getLast? = some '/'))

instance instDecEqExcept {ε α : Type} [DecidableEq ε] [DecidableEq α] :
    DecidableEq (Except ε α) := fun a b =>
  match a, b with
  | .ok x, .ok y =>
    if h : x = y then .isTrue (by rw [h])
    else .isFalse (by intro hc; cases hc; exact h rfl)
  | .error x, .error y =>
    if h : x = y then .isTrue (by rw [h])
    else .isFalse (by intro hc; cases hc; exact h rfl)
  | .ok _, .error _ => .isFalse (by intro hc; cases hc)
  | .error _, .ok _ => .isFalse (by intro hc; cases hc)

end TempDirectory

/-- A successful facade result with the given square dimension whose entries
agree with the given matrix content on that region. -/
def okShapedEntries (e : Except LyapErr (DMat K)) (m : ℕ) (X : Mat K) : Prop :=
  match e with
  | .ok R => R.rows = m ∧ R.cols = m ∧ EqOn m m R.entry X
  | .error _ => False

instance instDecOkShaped (e : Except LyapErr (DMat K)) (m : ℕ) (X : Mat K) :
    Decidable (okShapedEntries e m X) :=
  match e with
  | .ok R => inferInstanceAs (Decidable (R.rows = m ∧ R.cols = m ∧ EqOn m m R.entry X))
  | .error _ => inferInstanceAs (Decidable False)

/-- Eigen data of a diagonal block of the quasi-triangular form: a 1-by-1
block holds its real eigenvalue, a 2-by-2 block the trace and determinant of
its eigenvalue pair. -/
inductive Blk (K : Type) : Type where
  | one : K → Blk K
  | two : K → K → Blk K

/-- The ordered diagonal block partition of the leading m × m region of S,
classified exactly as the block solver classifies it (an exactly zero
sub-diagonal entry starts a 1-by-1 block). -/
def parts : ℕ → Mat K → List (Blk K)
  | 0, _ => []
  | 1, S => [.one (S 0 0)]
  | (m + 2), S =>
    if S 1 0 = 0 then .one (S 0 0) :: parts (m + 1) (matShift 1 1 S)
    else .two (S 0 0 + S 1 1) (S 0 0 * S 1 1 - S 0 1 * S 1 0) :: parts m (matShift 2 2 S)

/-- For two diagonal blocks, the product of all sums λ + μ with λ an
eigenvalue of the first block and μ one of the second, expressed through the
trace/determinant coordinates so that conjugate pairs never leave the base
field; it vanishes exactly when some eigenvalue of one block and some
eigenvalue of the other sum to zero. -/
def pairPoly : Blk K → Blk K → K
  | .one t, .one u => t + u
  | .one t, .two p q => t * t + p * t + q
  | .two p q, .one t => t * t + p * t + q
  | .two p q, .two r s => q * (p + r) ^ 2 + p * (p + r) * (s - q) + (s - q) ^ 2

/-- The spectral uniqueness condition fails on a block partition: some pair
of diagonal blocks (possibly one block taken twice) contributes two
eigenvalues summing to zero — covering a zero eigenvalue, a
complex-conjugate pair with vanishing real part (vanishing trace), and a
pair of real eigenvalues that cancel. -/
def specViolation (l : List (Blk K)) : Prop :=
  ∃ p ∈ l, ∃ q ∈ l, pairPoly p q = 0

/-- Eigen data of a leading b × b diagonal block read off a matrix: the
scalar for b = 1, trace and determinant for b = 2. -/
def blkOf (b : ℕ) (C : Mat K) : Blk K :=
  if b = 1 then .one (C 0 0)
  else .two (C 0 0 + C 1 1) (C 0 0 * C 1 1 - C 0 1 * C 1 0)

/-- Whenever the facade succeeds, its result solves the continuous Lyapunov
equation of its arguments exactly: Aᵀ·X + X·A = −Q on the n × n region. -/
def residualHolds (dec : ℕ → Mat K → Option (Mat K × Mat K)) (A Q : DMat K) : Prop :=
  ∀ X, RealContinuousLyapunovEquation dec A Q = .ok X →
    EqOn A.rows A.rows
      (matAdd (matMul A.rows (matTrans A.entry) X.entry) (matMul A.rows X.entry A.entry))
      (matNeg Q.entry)

/-- Whenever the facade succeeds, its result is a symmetric matrix of the
input dimension. -/
def symmHolds (dec : ℕ → Mat K → Option (Mat K × Mat K)) (A Q : DMat K) : Prop :=
  ∀ X, RealContinuousLyapunovEquation dec A Q = .ok X →
    X.rows = A.rows ∧ X.cols = A.rows ∧ SymmOn A.rows X.entry

/-- The Mathlib-matrix reading of the leading n × n region, used to state
and prove the orthogonal-conjugation steps. -/
def toM (n : ℕ) (A : Mat K) : Matrix (Fin n) (Fin n) K := Matrix.of fun i j => A i j

/-- C4: for every input pair (A, Q) where A is not square, or Q is not
square, or A and Q have mismatched dimensions, the facade fails with
InvalidArgument; the conclusion holds for every decomposition capability and
does not inspect any entry, so the failure precedes all numerical work. -/
theorem C4_shape_contract : ∀ (K : Type) [Field K] [DecidableEq K]
    (dec : ℕ → Mat K → Option (Mat K × Mat K)) (A Q : DMat K),
    ¬(A.rows = A.cols ∧ Q.rows = Q.cols ∧ A.rows = Q.rows) →
    RealContinuousLyapunovEquation dec A Q = .error .InvalidArgument := by
  intro K _ _ dec A Q h
  unfold RealContinuousLyapunovEquation
  rw [if_neg h]

/-- Witness for C4 at the three invalidly sized pairs of the repository's
ThrowInvalidSizedMatricesTest: non-square A, non-square Q, mismatched sizes. -/
theorem C4_shape_contract_witness :
    RealContinuousLyapunovEquation decId (⟨1, 2, m2 (1:ℚ) 1 0 0⟩ : DMat ℚ) ⟨2, 2, m2 1 1 1 1⟩
      = .error .InvalidArgument ∧
    RealContinuousLyapunovEquation decId (⟨2, 2, m2 (1:ℚ) 1 1 1⟩ : DMat ℚ) ⟨1, 2, m2 1 1 0 0⟩
      = .error .InvalidArgument ∧
    RealContinuousLyapunovEquation decId (⟨2, 2, m2 (1:ℚ) 1 1 1⟩ : DMat ℚ) ⟨1, 1, m1 1⟩
      = .error .InvalidArgument :=
  ⟨C4_shape_contract ℚ decId _ _ (by decide),
   C4_shape_contract ℚ decId _ _ (by decide),
   C4_shape_contract ℚ decId _ _ (by decide)⟩

/-- C5: the 1-by-1 kernel solves the scalar equation 2·t·x = −r by
x = −r/(2·t), fails with SingularSystem when 2·t vanishes (the idealised
below-tolerance test), and on A = [−1], Q = [1] both the kernel (applied to
Aᵀ, as in the repository's Solve1by1Test) and the full solver return 0.5. -/
theorem C5_one_by_one_kernel :
    (∀ (K : Type) [Field K] [DecidableEq K] (A Q : Mat K) (x : K),
      oEntry (Solve1By1RealContinuousLyapunovEquation A Q) 0 0 = some x →
      2 * A 0 0 * x = -(Q 0 0) ∧ x = -(Q 0 0) / (2 * A 0 0)) ∧
    (∀ (K : Type) [Field K] [DecidableEq K] (A Q : Mat K),
      2 * A 0 0 = 0 →
      Solve1By1RealContinuousLyapunovEquation A Q = .error .SingularSystem) ∧
    oEntry (Solve1By1RealContinuousLyapunovEquation (matTrans (m1 (-1 : ℚ))) (m1 1)) 0 0
      = some (1/2) ∧
    dEntry (RealContinuousLyapunovEquation decId ⟨1, 1, m1 (-1 : ℚ)⟩ ⟨1, 1, m1 1⟩) 0 0
      = some (1/2) := by
  refine ⟨?_, ?_, ?_, ?_⟩
  · intro K _ _ A Q x h
    by_cases h0 : 2 * A 0 0 = 0
    · rw [show Solve1By1RealContinuousLyapunovEquation A Q = .error .SingularSystem from by
        unfold Solve1By1RealContinuousLyapunovEquation; rw [if_pos h0]] at h
      exact absurd h (by simp [oEntry])
    · rw [show Solve1By1RealContinuousLyapunovEquation A Q
          = .ok (m1 (-(Q 0 0) / (2 * A 0 0))) from by
        unfold Solve1By1RealContinuousLyapunovEquation; rw [if_neg h0]] at h
      simp only [oEntry, m1, if_pos (And.intro rfl rfl), Option.some.injEq] at h
      subst h
      exact ⟨by field_simp; ring, rfl⟩
  · intro K _ _ A Q h0
    unfold Solve1By1RealContinuousLyapunovEquation
    rw [if_pos h0]
  · norm_num [oEntry, Solve1By1RealContinuousLyapunovEquation, matTrans, m1]
  · norm_num [RealContinuousLyapunovEquation, decId, blockSolve,
      Solve1By1RealContinuousLyapunovEquation, matMul, matTrans, matId, m1, dEntry,
      Finset.sum_range_succ]

/-- Witness for C5: the closed-form part at t = −1, r = 1 and the singular
part at t = 0. -/
theorem C5_one_by_one_kernel_witness :
    (2 * (m1 (-1 : ℚ)) 0 0 * (1/2) = -((m1 (1 : ℚ)) 0 0) ∧
      (1/2 : ℚ) = -((m1 (1 : ℚ)) 0 0) / (2 * (m1 (-1 : ℚ)) 0 0)) ∧
    Solve1By1RealContinuousLyapunovEquation (m1 (0 : ℚ)) (m1 1)
      = .error .SingularSystem :=
  ⟨C5_one_by_one_kernel.1 ℚ (m1 (-1)) (m1 1) (1/2)
      (by norm_num [oEntry, Solve1By1RealContinuousLyapunovEquation, m1]),
   C5_one_by_one_kernel.2.1 ℚ (m1 0) (m1 1) (by norm_num [m1])⟩

/-- C7: on A = [[0,1,0],[−1,−1,0],[0,0,−1]] (already in real Schur form,
with a 2-by-2 diagonal block for the complex-conjugate pair −1/2 ± i·√3/2
and a 1-by-1 block for the eigenvalue −1) and Q = I₃, the solver returns
exactly X = [[3/2,1/2,0],[1/2,1,0],[0,0,1/2]]. -/
theorem C7_three_by_three_block_case :
    okShapedEntries
      (RealContinuousLyapunovEquation decId
        ⟨3, 3, m3 (0:ℚ) 1 0 (-1) (-1) 0 0 0 (-1)⟩ ⟨3, 3, matId⟩)
      3 (m3 (3/2) (1/2) 0 (1/2) 1 0 0 0 (1/2)) := by
  norm_num [okShapedEntries, RealContinuousLyapunovEquation, decId, blockSolve,
    Solve1By1RealContinuousLyapunovEquation, Solve2By2RealContinuousLyapunovEquation,
    sylvCol, sylvK, offRHS, recQ, asm, matMul, matTrans, matId, matZero, matShift,
    m1, m2, m3, det2, det3, det4, EqOn, Bind.bind, Except.bind,
    Finset.sum_range_succ, Finset.sum_range_zero]
  intro i hi j hj
  interval_cases i <;> interval_cases j <;> norm_num

/-- C8: the facade is a deterministic pure function of its inputs — two
calls with identical A, Q and the same decomposition capability yield
identical results.  (In this shallow embedding the solver is a function and
all effects of the original are out of scope by construction, matching the
spec's no-I/O, no-shared-state description.) -/
theorem C8_deterministic : ∀ (K : Type) [Field K] [DecidableEq K]
    (dec : ℕ → Mat K → Option (Mat K × Mat K)) (A Q : DMat K)
    (r1 r2 : Except LyapErr (DMat K)),
    RealContinuousLyapunovEquation dec A Q = r1 →
    RealContinuousLyapunovEquation dec A Q = r2 → r1 = r2 := by
  intro K _ _ dec A Q r1 r2 h1 h2
  rw [← h1, ← h2]

/-- Witness for C8 at a concrete 1-by-1 instance. -/
theorem C8_deterministic_witness :
    RealContinuousLyapunovEquation decId (⟨1, 1, m1 (-1 : ℚ)⟩ : DMat ℚ) ⟨1, 1, m1 1⟩
      = RealContinuousLyapunovEquation decId (⟨1, 1, m1 (-1 : ℚ)⟩ : DMat ℚ) ⟨1, 1, m1 1⟩ :=
  C8_deterministic ℚ decId ⟨1, 1, m1 (-1)⟩ ⟨1, 1, m1 1⟩ _ _ rfl rfl

/-- C9: the 2-by-2 kernel never reads the lower-left right-hand-side entry
Q(1,0): two right-hand sides agreeing at (0,0), (0,1) and (1,1) produce
identical results, for every A. -/
theorem C9_kernel_ignores_q10 : ∀ (K : Type) [Field K] [DecidableEq K]
    (A Q Qj : Mat K), Q 0 0 = Qj 0 0 → Q 0 1 = Qj 0 1 → Q 1 1 = Qj 1 1 →
    Solve2By2RealContinuousLyapunovEquation A Q
      = Solve2By2RealContinuousLyapunovEquation A Qj := by
  intro K _ _ A Q Qj h1 h2 h3
  unfold Solve2By2RealContinuousLyapunovEquation
  rw [h1, h2, h3]

/-- Witness for C9: the repository's Solve2by2Test feeds garbage (NaN there,
999 here) at Q(1,0) and still gets the solution of the honest symmetric Q. -/
theorem C9_kernel_ignores_q10_witness :
    Solve2By2RealContinuousLyapunovEquation (m2 (1:ℚ) (-3) 2 (-4)) (m2 3 1 1 1)
      = Solve2By2RealContinuousLyapunovEquation (m2 (1:ℚ) (-3) 2 (-4)) (m2 3 1 999 1) ∧
    oEntry (Solve2By2RealContinuousLyapunovEquation (m2 (1:ℚ) (-3) 2 (-4)) (m2 3 1 999 1)) 0 0
      = some (37/6) :=
  ⟨C9_kernel_ignores_q10 ℚ (m2 1 (-3) 2 (-4)) (m2 3 1 1 1) (m2 3 1 999 1)
    rfl rfl rfl,
   by norm_num [oEntry, Solve2By2RealContinuousLyapunovEquation, m2, det3]⟩

/-- At most one trailing slash is removed; if the path did not end in two
slashes, the result does not end in a slash. -/
theorem stripTrailingSlash_no_slash (p : List Char) (h : ¬ endsTwoSlash p) :
    ¬ endsSlash (stripTrailingSlash p) := by
  unfold stripTrailingSlash endsSlash
  by_cases h1 : p.getLast? = some '/'
  · rw [if_pos h1]
    intro h2
    exact h ⟨h1, h2⟩
  · rw [if_neg h1]
    exact h1

/-- C10 counterexample: the source strips at most one trailing slash, so
with TEST_TMPDIR set to /tmp// (and the filesystem confirming that string
names a directory) temp_directory succeeds and returns /tmp/, which still
ends with a slash — refuting the claim that the result never ends in one. -/
theorem C10_trailing_slash_counterexample :
    temp_directory
      ⟨some ("/tmp//".toList), none, fun _ => none,
        fun s => decide (s = "/tmp//".toList)⟩
      = .ok ("/tmp/".toList) ∧ endsSlash ("/tmp/".toList) := by decide

/-- C10 amended: on success, temp_directory returns the chosen path — the
value of TEST_TMPDIR whenever that variable is set, giving it precedence
over TMPDIR and /tmp — which the filesystem confirmed to be a directory,
with a single trailing slash stripped; consequently the result ends in no
slash provided the chosen path did not end in two. -/
theorem C10_amended_temp_directory : ∀ (env : TempFsEnv) (r : List Char),
    temp_directory env = .ok r →
    ∃ p, env.isDir p = true ∧ r = stripTrailingSlash p ∧
      (∀ v, env.testTmpdir = some v → p = v) ∧
      (¬ endsTwoSlash p → ¬ endsSlash r) := by
  intro env r h
  rcases henv : env.testTmpdir with _ | v
  · simp only [temp_directory, henv] at h
    split at h
    · exact absurd h (by simp)
    · rename_i d hmk
      by_cases hdir : env.isDir d
      · rw [if_pos hdir] at h
        cases h
        refine ⟨d, hdir, rfl, ?_, fun h2 => stripTrailingSlash_no_slash d h2⟩
        intro v hv
        cases hv
      · rw [if_neg hdir] at h
        exact absurd h (by simp)
  · simp only [temp_directory, henv] at h
    by_cases hdir : env.isDir v
    · rw [if_pos hdir] at h
      cases h
      refine ⟨v, hdir, rfl, ?_, fun h2 => stripTrailingSlash_no_slash v h2⟩
      intro w hw
      cases hw
      rfl
    · rw [if_neg hdir] at h
      exact absurd h (by simp)

/-- Splitting a length-n range sum at b. -/
theorem sum_split (n b : ℕ) (hb : b ≤ n) (f : ℕ → K) :
    ∑ t in Finset.range n, f t
      = (∑ t in Finset.range b, f t) + ∑ t in Finset.range (n - b), f (b + t) := by
  obtain ⟨k, rfl⟩ : ∃ k, n = b + k := ⟨n - b, by omega⟩
  rw [Nat.add_sub_cancel_left, Finset.sum_range_add]

theorem exBind_ok {α β : Type} (a : α) (f : α → Except LyapErr β) :
    (Except.ok a >>= f) = f a := rfl

theorem exBind_err {α β : Type} (e : LyapErr) (f : α → Except LyapErr β) :
    ((Except.error e : Except LyapErr α) >>= f) = Except.error e := rfl

/-- When the solver starts a 1-by-1 block, the whole first column below the
diagonal vanishes. -/
theorem lower_col_b1 (m : ℕ) (S : Mat K) (hq : quasiTri m S) (h10 : S 1 0 = 0) :
    ∀ t, t < m → 1 ≤ t → ∀ j, j < 1 → S t j = 0 := by
  intro t ht h1 j hj
  interval_cases j
  rcases Nat.lt_or_ge t 2 with h2 | h2
  · have : t = 1 := by omega
    rw [this]
    exact h10
  · exact hq.1 t ht 0 (by omega) (by omega)

/-- When the solver starts a 2-by-2 block, the first two columns below the
block vanish. -/
theorem lower_col_b2 (m : ℕ) (S : Mat K) (hq : quasiTri m S) (h10 : S 1 0 ≠ 0) :
    ∀ t, t < m → 2 ≤ t → ∀ j, j < 2 → S t j = 0 := by
  intro t ht h2 j hj
  rcases Nat.lt_or_ge j 1 with hj0 | hj1
  · interval_cases j
    exact hq.1 t ht 0 (by omega) (by omega)
  · have hj' : j = 1 := by omega
    subst hj'
    rcases Nat.lt_or_ge t 3 with h3 | h3
    · have : t = 2 := by omega
      subst this
      exact hq.2 0 (by omega) (by omega) h10
    · exact hq.1 t ht 1 (by omega) (by omega)

/-- Quasi-triangular structure restricts to the trailing diagonal block. -/
theorem quasiTri_shift (m b : ℕ) (S : Mat K) (hq : quasiTri m S) :
    quasiTri (m - b) (matShift b b S) := by
  constructor
  · intro i hi j hj hij
    exact hq.1 (b + i) (by omega) (b + j) (by omega) (by omega)
  · intro i hi hi2 hne
    have := hq.2 (b + i) (by omega) (by omega)
    unfold matShift at *
    rw [show b + (i + 1) = b + i + 1 by omega] at hne
    rw [show b + (i + 2) = b + i + 2 by omega, show b + (i + 1) = b + i + 1 by omega]
    exact this hne

/-- Shape of a successful 1-by-1 kernel call. -/
theorem solve1_ok (S Q x1 : Mat K)
    (h : Solve1By1RealContinuousLyapunovEquation S Q = .ok x1) :
    2 * S 0 0 ≠ 0 ∧ x1 = m1 (-(Q 0 0) / (2 * S 0 0)) := by
  unfold Solve1By1RealContinuousLyapunovEquation at h
  by_cases h0 : 2 * S 0 0 = 0
  · rw [if_pos h0] at h
    cases h
  · rw [if_neg h0] at h
    cases h
    exact ⟨h0, rfl⟩

/-- The 1-by-1 kernel solves its scalar block equation. -/
theorem solve1_ok_eq (S Q x1 : Mat K)
    (h : Solve1By1RealContinuousLyapunovEquation S Q = .ok x1) :
    (∀ i, i < 1 → ∀ j, j < 1 →
      (∑ t in Finset.range 1, S t i * x1 t j) + (∑ t in Finset.range 1, x1 i t * S t j)
        = -Q i j) ∧ SymmOn 1 x1 := by
  obtain ⟨h0, hx⟩ := solve1_ok S Q x1 h
  subst hx
  constructor
  · intro i hi j hj
    interval_cases i
    interval_cases j
    simp only [Finset.sum_range_one, m1, if_pos (And.intro rfl rfl)]
    field_simp
    ring
  · intro i hi j hj
    interval_cases i
    interval_cases j
    rfl

/-- Shape of a successful 2-by-2 kernel call: the 3-by-3 Cramer system was
regular, and its determinant is 4·trace·det of the block. -/
theorem solve2_ok (S Q x1 : Mat K)
    (h : Solve2By2RealContinuousLyapunovEquation S Q = .ok x1) :
    det3 (2 * S 0 0) (2 * S 1 0) 0 (S 0 1) (S 0 0 + S 1 1) (S 1 0) 0 (2 * S 0 1) (2 * S 1 1) ≠ 0
    ∧ x1 = m2
      (det3 (-(Q 0 0)) (2 * S 1 0) 0 (-(Q 0 1)) (S 0 0 + S 1 1) (S 1 0) (-(Q 1 1)) (2 * S 0 1) (2 * S 1 1)
        / det3 (2 * S 0 0) (2 * S 1 0) 0 (S 0 1) (S 0 0 + S 1 1) (S 1 0) 0 (2 * S 0 1) (2 * S 1 1))
      (det3 (2 * S 0 0) (-(Q 0 0)) 0 (S 0 1) (-(Q 0 1)) (S 1 0) 0 (-(Q 1 1)) (2 * S 1 1)
        / det3 (2 * S 0 0) (2 * S 1 0) 0 (S 0 1) (S 0 0 + S 1 1) (S 1 0) 0 (2 * S 0 1) (2 * S 1 1))
      (det3 (2 * S 0 0) (-(Q 0 0)) 0 (S 0 1) (-(Q 0 1)) (S 1 0) 0 (-(Q 1 1)) (2 * S 1 1)
        / det3 (2 * S 0 0) (2 * S 1 0) 0 (S 0 1) (S 0 0 + S 1 1) (S 1 0) 0 (2 * S 0 1) (2 * S 1 1))
      (det3 (2 * S 0 0) (2 * S 1 0) (-(Q 0 0)) (S 0 1) (S 0 0 + S 1 1) (-(Q 0 1)) 0 (2 * S 0 1) (-(Q 1 1))
        / det3 (2 * S 0 0) (2 * S 1 0) 0 (S 0 1) (S 0 0 + S 1 1) (S 1 0) 0 (2 * S 0 1) (2 * S 1 1)) := by
  unfold Solve2By2RealContinuousLyapunovEquation at h
  by_cases h0 : det3 (2 * S 0 0) (2 * S 1 0) 0 (S 0 1) (S 0 0 + S 1 1) (S 1 0) 0 (2 * S 0 1) (2 * S 1 1) = 0
  · rw [if_pos h0] at h
    cases h
  · rw [if_neg h0] at h
    cases h
    exact ⟨h0, rfl⟩

/-- The determinant of the 2-by-2 kernel's 3-by-3 system is four times the
product of the trace and the determinant of the diagonal block. -/
theorem solve2_det (a b c d : K) :
    det3 (2 * a) (2 * c) 0 b (a + d) c 0 (2 * b) (2 * d)
      = 4 * ((a + d) * (a * d - b * c)) := by
  unfold det3
  ring

/-- The 2-by-2 kernel solves its block equation (for a symmetric right-hand
side) and returns a symmetric block. -/
theorem solve2_ok_eq (S Q x1 : Mat K) (hQs : Q 1 0 = Q 0 1)
    (h : Solve2By2RealContinuousLyapunovEquation S Q = .ok x1) :
    (∀ i, i < 2 → ∀ j, j < 2 →
      (∑ t in Finset.range 2, S t i * x1 t j) + (∑ t in Finset.range 2, x1 i t * S t j)
        = -Q i j) ∧ SymmOn 2 x1 := by
  obtain ⟨h0, hx⟩ := solve2_ok S Q x1 h
  subst hx
  constructor
  · intro i hi j hj
    interval_cases i <;> interval_cases j <;>
      simp only [Finset.sum_range_succ, Finset.sum_range_zero, m2, zero_add, hQs] <;>
      norm_num <;>
      field_simp <;>
      unfold det3 <;>
      ring
  · intro i hi j hj
    interval_cases i <;> interval_cases j <;> simp [m2]

/-- A successful small Sylvester kernel call solves its block equation:
Bᵀ·Y + Y·C agrees with R on the b1 × b2 region. -/
theorem sylvK_ok_eq (b1 b2 : ℕ) (hb1 : b1 = 1 ∨ b1 = 2) (hb2 : b2 = 1 ∨ b2 = 2)
    (B C R Y : Mat K) (h : sylvK b1 b2 B C R = .ok Y) :
    ∀ i, i < b1 → ∀ j, j < b2 →
      (∑ t in Finset.range b1, B t i * Y t j) + (∑ t in Finset.range b2, Y i t * C t j)
        = R i j := by
  rcases hb1 with rfl | rfl <;> rcases hb2 with rfl | rfl <;>
    unfold sylvK at h
  · by_cases h0 : B 0 0 + C 0 0 = 0
    · rw [if_pos h0] at h
      cases h
    · rw [if_neg h0] at h
      cases h
      intro i hi j hj
      interval_cases i
      interval_cases j
      simp only [Finset.sum_range_one, m1, if_pos (And.intro rfl rfl)]
      field_simp
      ring
  · by_cases h0 : det2 (B 0 0 + C 0 0) (C 1 0) (C 0 1) (B 0 0 + C 1 1) = 0
    · rw [if_pos h0] at h
      cases h
    · rw [if_neg h0] at h
      cases h
      intro i hi j hj
      interval_cases i <;> interval_cases j <;>
        simp only [Finset.sum_range_succ, Finset.sum_range_zero, m2, zero_add] <;>
        norm_num <;>
        field_simp <;>
        unfold det2 at * <;>
        ring_nf <;>
        ring_nf at h0 <;>
        field_simp <;>
        ring
  · by_cases h0 : det2 (B 0 0 + C 0 0) (B 1 0) (B 0 1) (B 1 1 + C 0 0) = 0
    · rw [if_pos h0] at h
      cases h
    · rw [if_neg h0] at h
      cases h
      intro i hi j hj
      interval_cases i <;> interval_cases j <;>
        simp only [Finset.sum_range_succ, Finset.sum_range_zero, m2, zero_add] <;>
        norm_num <;>
        field_simp <;>
        unfold det2 at * <;>
        ring_nf <;>
        ring_nf at h0 <;>
        field_simp <;>
        ring
  · by_cases h0 : det4 (B 0 0 + C 0 0) (C 1 0) (B 1 0) 0
        (C 0 1) (B 0 0 + C 1 1) 0 (B 1 0)
        (B 0 1) 0 (B 1 1 + C 0 0) (C 1 0)
        0 (B 0 1) (C 0 1) (B 1 1 + C 1 1) = 0
    · rw [if_pos h0] at h
      cases h
    · rw [if_neg h0] at h
      cases h
      intro i hi j hj
      interval_cases i <;> interval_cases j <;>
        simp only [Finset.sum_range_succ, Finset.sum_range_zero, m2, zero_add] <;>
        norm_num <;>
        field_simp <;>
        unfold det4 det3 at * <;>
        ring_nf <;>
        ring_nf at h0 <;>
        field_simp <;>
        ring

/-- The off-diagonal column solver solves its Sylvester equation:
S1ᵀ·Y + Y·C agrees with R on the m1 × b2 region. -/
theorem sylvCol_ok_eq : ∀ (m1 b2 : ℕ) (S1 C R Y : Mat K), b2 = 1 ∨ b2 = 2 →
    quasiTri m1 S1 → sylvCol m1 b2 S1 C R = .ok Y →
    ∀ i, i < m1 → ∀ j, j < b2 →
      (∑ t in Finset.range m1, S1 t i * Y t j) + (∑ t in Finset.range b2, Y i t * C t j)
        = R i j := by
  intro m1
  induction m1 using Nat.strong_induction_on with
  | _ m1 IH =>
    rcases m1 with _ | _ | m
    · intro b2 S1 C R Y hb2 hq hok i hi
      omega
    · intro b2 S1 C R Y hb2 hq hok i hi j hj
      have := sylvK_ok_eq 1 b2 (Or.inl rfl) hb2 S1 C R Y hok i hi j hj
      exact this
    · intro b2 S1 C R Y hb2 hq hok i hi j hj
      rw [show sylvCol (m + 2) b2 S1 C R
          = (if S1 1 0 = 0 then do
              let Y1 ← sylvK 1 b2 S1 C R
              let Y2 ← sylvCol (m + 1) b2 (matShift 1 1 S1) C
                (fun i j => R (1 + i) j - ∑ t in Finset.range 1, S1 t (1 + i) * Y1 t j)
              .ok (fun i j => if i < 1 then Y1 i j else Y2 (i - 1) j)
            else do
              let Y1 ← sylvK 2 b2 S1 C R
              let Y2 ← sylvCol m b2 (matShift 2 2 S1) C
                (fun i j => R (2 + i) j - ∑ t in Finset.range 2, S1 t (2 + i) * Y1 t j)
              .ok (fun i j => if i < 2 then Y1 i j else Y2 (i - 2) j)) from rfl] at hok
      by_cases h10 : S1 1 0 = 0
      · rw [if_pos h10] at hok
        rcases hk : sylvK 1 b2 S1 C R with e | Y1
        · rw [hk, exBind_err] at hok
          cases hok
        · rw [hk, exBind_ok] at hok
          rcases hk2 : sylvCol (m + 1) b2 (matShift 1 1 S1) C
              (fun i j => R (1 + i) j - ∑ t in Finset.range 1, S1 t (1 + i) * Y1 t j)
            with e | Y2
          · rw [hk2, exBind_err] at hok
            cases hok
          · rw [hk2, exBind_ok] at hok
            cases hok
            have hKe := sylvK_ok_eq 1 b2 (Or.inl rfl) hb2 S1 C R Y1 hk
            have hIH := IH (m + 1) (by omega) b2 (matShift 1 1 S1) C
              (fun i j => R (1 + i) j - ∑ t in Finset.range 1, S1 t (1 + i) * Y1 t j) Y2
              hb2 (by
                have := quasiTri_shift (m + 2) 1 S1 hq
                simpa using this) hk2
            rw [sum_split (m + 2) 1 (by omega), show (m + 2 : ℕ) - 1 = m + 1 by omega]
            simp only []
            rcases Nat.lt_or_ge i 1 with hi1 | hi1
            · interval_cases i
              have hup : ∑ t in Finset.range (m + 1),
                  S1 (1 + t) 0 * (if 1 + t < 1 then Y1 (1 + t) j else Y2 (1 + t - 1) j) = 0 := by
                apply Finset.sum_eq_zero
                intro t ht
                have ht' := Finset.mem_range.mp ht
                rw [lower_col_b1 (m + 2) S1 hq h10 (1 + t) (by omega) (by omega) 0 (by omega)]
                ring
              rw [hup]
              have hlow : ∀ t, t < 1 →
                  S1 t 0 * (if t < 1 then Y1 t j else Y2 (t - 1) j) = S1 t 0 * Y1 t j := by
                intro t ht
                rw [if_pos ht]
              rw [Finset.sum_congr rfl (fun t ht => hlow t (Finset.mem_range.mp ht))]
              have hsec : ∀ t, t < b2 →
                  (if (0 : ℕ) < 1 then Y1 0 t else Y2 (0 - 1) t) * C t j = Y1 0 t * C t j := by
                intro t ht
                norm_num
              rw [Finset.sum_congr rfl (fun t ht => hsec t (Finset.mem_range.mp ht))]
              have := hKe 0 (by omega) j hj
              rw [add_zero]
              exact this
            · obtain ⟨i', rfl⟩ : ∃ i', i = 1 + i' := ⟨i - 1, by omega⟩
              have hi' : i' < m + 1 := by omega
              have hlow : ∀ t, t < 1 →
                  S1 t (1 + i') * (if t < 1 then Y1 t j else Y2 (t - 1) j)
                    = S1 t (1 + i') * Y1 t j := by
                intro t ht
                rw [if_pos ht]
              have hup : ∀ t, t < m + 1 →
                  S1 (1 + t) (1 + i') * (if 1 + t < 1 then Y1 (1 + t) j else Y2 (1 + t - 1) j)
                    = matShift 1 1 S1 t i' * Y2 t j := by
                intro t ht
                rw [if_neg (by omega), show 1 + t - 1 = t by omega]
                rfl
              have hsec : ∀ t, t < b2 →
                  (if 1 + i' < 1 then Y1 (1 + i') t else Y2 (1 + i' - 1) t) * C t j
                    = Y2 i' t * C t j := by
                intro t ht
                rw [if_neg (by omega), show 1 + i' - 1 = i' by omega]
              rw [Finset.sum_congr rfl (fun t ht => hlow t (Finset.mem_range.mp ht)),
                Finset.sum_congr rfl (fun t ht => hup t (Finset.mem_range.mp ht)),
                Finset.sum_congr rfl (fun t ht => hsec t (Finset.mem_range.mp ht))]
              have h2 := hIH i' hi' j hj
              simp only [] at h2
              rw [show ∀ x y z : K, x + y + z = x + (y + z) from fun x y z => add_assoc x y z,
                h2]
              ring
      · rw [if_neg h10] at hok
        rcases hk : sylvK 2 b2 S1 C R with e | Y1
        · rw [hk, exBind_err] at hok
          cases hok
        · rw [hk, exBind_ok] at hok
          rcases hk2 : sylvCol m b2 (matShift 2 2 S1) C
              (fun i j => R (2 + i) j - ∑ t in Finset.range 2, S1 t (2 + i) * Y1 t j)
            with e | Y2
          · rw [hk2, exBind_err] at hok
            cases hok
          · rw [hk2, exBind_ok] at hok
            cases hok
            have hKe := sylvK_ok_eq 2 b2 (Or.inr rfl) hb2 S1 C R Y1 hk
            have hIH := IH m (by omega) b2 (matShift 2 2 S1) C
              (fun i j => R (2 + i) j - ∑ t in Finset.range 2, S1 t (2 + i) * Y1 t j) Y2
              hb2 (by
                have := quasiTri_shift (m + 2) 2 S1 hq
                simpa using this) hk2
            rw [sum_split (m + 2) 2 (by omega), show (m + 2 : ℕ) - 2 = m by omega]
            simp only []
            rcases Nat.lt_or_ge i 2 with hi1 | hi1
            · have hup : ∑ t in Finset.range m,
                  S1 (2 + t) i * (if 2 + t < 2 then Y1 (2 + t) j else Y2 (2 + t - 2) j) = 0 := by
                apply Finset.sum_eq_zero
                intro t ht
                have ht' := Finset.mem_range.mp ht
                rw [lower_col_b2 (m + 2) S1 hq h10 (2 + t) (by omega) (by omega) i hi1]
                ring
              rw [hup]
              have hlow : ∀ t, t < 2 →
                  S1 t i * (if t < 2 then Y1 t j else Y2 (t - 2) j) = S1 t i * Y1 t j := by
                intro t ht
                rw [if_pos ht]
              rw [Finset.sum_congr rfl (fun t ht => hlow t (Finset.mem_range.mp ht))]
              have hsec : ∀ t, t < b2 →
                  (if i < 2 then Y1 i t else Y2 (i - 2) t) * C t j = Y1 i t * C t j := by
                intro t ht
                rw [if_pos hi1]
              rw [Finset.sum_congr rfl (fun t ht => hsec t (Finset.mem_range.mp ht))]
              have := hKe i hi1 j hj
              rw [add_zero]
              exact this
            · obtain ⟨i', rfl⟩ : ∃ i', i = 2 + i' := ⟨i - 2, by omega⟩
              have hi' : i' < m := by omega
              have hlow : ∀ t, t < 2 →
                  S1 t (2 + i') * (if t < 2 then Y1 t j else Y2 (t - 2) j)
                    = S1 t (2 + i') * Y1 t j := by
                intro t ht
                rw [if_pos ht]
              have hup : ∀ t, t < m →
                  S1 (2 + t) (2 + i') * (if 2 + t < 2 then Y1 (2 + t) j else Y2 (2 + t - 2) j)
                    = matShift 2 2 S1 t i' * Y2 t j := by
                intro t ht
                rw [if_neg (by omega), show 2 + t - 2 = t by omega]
                rfl
              have hsec : ∀ t, t < b2 →
                  (if 2 + i' < 2 then Y1 (2 + i') t else Y2 (2 + i' - 2) t) * C t j
                    = Y2 i' t * C t j := by
                intro t ht
                rw [if_neg (by omega), show 2 + i' - 2 = i' by omega]
              rw [Finset.sum_congr rfl (fun t ht => hlow t (Finset.mem_range.mp ht)),
                Finset.sum_congr rfl (fun t ht => hup t (Finset.mem_range.mp ht)),
                Finset.sum_congr rfl (fun t ht => hsec t (Finset.mem_range.mp ht))]
              have h2 := hIH i' hi' j hj
              simp only [] at h2
              rw [show ∀ x y z : K, x + y + z = x + (y + z) from fun x y z => add_assoc x y z,
                h2]
              ring

/-- Gluing step of the block back-substitution: if the leading diagonal
block, the off-diagonal coupling column and the corrected trailing problem
are each solved, the assembled matrix solves the full equation on the m × m
region and is symmetric there. -/
theorem peel_eq (m b : ℕ) (S Q x1 Y X1 : Mat K)
    (hb1 : 1 ≤ b) (hbm : b ≤ m)
    (hLL : ∀ t, t < m → b ≤ t → ∀ j, j < b → S t j = 0)
    (hker : ∀ i, i < b → ∀ j, j < b →
      (∑ t in Finset.range b, S t i * x1 t j) + (∑ t in Finset.range b, x1 i t * S t j)
        = -Q i j)
    (hx1s : SymmOn b x1)
    (hQs : SymmOn m Q)
    (hY : ∀ i, i < m - b → ∀ j, j < b →
      (∑ t in Finset.range (m - b), S (b + t) (b + i) * Y t j)
        + (∑ t in Finset.range b, Y i t * S t j) = offRHS b S Q x1 i j)
    (hX1 : ∀ i, i < m - b → ∀ j, j < m - b →
      (∑ t in Finset.range (m - b), S (b + t) (b + i) * X1 t j)
        + (∑ t in Finset.range (m - b), X1 i t * S (b + t) (b + j)) = -(recQ b S Q Y i j))
    (hX1s : SymmOn (m - b) X1) :
    (∀ i, i < m → ∀ j, j < m →
      (∑ t in Finset.range m, S t i * asm b x1 Y X1 t j)
        + (∑ t in Finset.range m, asm b x1 Y X1 i t * S t j) = -Q i j)
    ∧ SymmOn m (asm b x1 Y X1) := by
  simp only [offRHS] at hY
  simp only [recQ] at hX1
  constructor
  · intro i hi j hj
    rw [sum_split m b hbm, sum_split m b hbm]
    simp only [asm]
    rcases Nat.lt_or_ge i b with hib | hib <;> rcases Nat.lt_or_ge j b with hjb | hjb
    · -- diagonal-block region
      rw [Finset.sum_congr rfl (fun t ht => show S t i *
            (if t < b then (if j < b then x1 t j else Y (j - b) t)
              else (if j < b then Y (t - b) j else X1 (t - b) (j - b))) = S t i * x1 t j
          from by rw [if_pos (Finset.mem_range.mp ht), if_pos hjb]),
        Finset.sum_congr rfl (fun t ht => show S (b + t) i *
            (if b + t < b then (if j < b then x1 (b + t) j else Y (j - b) (b + t))
              else (if j < b then Y (b + t - b) j else X1 (b + t - b) (j - b))) = 0
          from by
            rw [hLL (b + t) (by have := Finset.mem_range.mp ht; omega) (by omega) i hib]
            ring),
        Finset.sum_congr rfl (fun t ht => show
            (if i < b then (if t < b then x1 i t else Y (t - b) i)
              else (if t < b then Y (i - b) t else X1 (i - b) (t - b))) * S t j = x1 i t * S t j
          from by rw [if_pos hib, if_pos (Finset.mem_range.mp ht)]),
        Finset.sum_congr rfl (fun t ht => show
            (if i < b then (if b + t < b then x1 i (b + t) else Y (b + t - b) i)
              else (if b + t < b then Y (i - b) (b + t) else X1 (i - b) (b + t - b))) * S (b + t) j = 0
          from by
            rw [hLL (b + t) (by have := Finset.mem_range.mp ht; omega) (by omega) j hjb]
            ring)]
      simp only [Finset.sum_const_zero, add_zero]
      exact hker i hib j hjb
    · -- upper-right coupling region
      obtain ⟨j', rfl⟩ : ∃ j', j = b + j' := ⟨j - b, by omega⟩
      have hj' : j' < m - b := by omega
      rw [Finset.sum_congr rfl (fun t ht => show S t i *
            (if t < b then (if b + j' < b then x1 t (b + j') else Y (b + j' - b) t)
              else (if b + j' < b then Y (t - b) (b + j') else X1 (t - b) (b + j' - b)))
            = Y j' t * S t i
          from by
            rw [if_pos (Finset.mem_range.mp ht), if_neg (by omega),
              show b + j' - b = j' by omega]
            ring),
        Finset.sum_congr rfl (fun t ht => show S (b + t) i *
            (if b + t < b then (if b + j' < b then x1 (b + t) (b + j') else Y (b + j' - b) (b + t))
              else (if b + j' < b then Y (b + t - b) (b + j') else X1 (b + t - b) (b + j' - b))) = 0
          from by
            rw [hLL (b + t) (by have := Finset.mem_range.mp ht; omega) (by omega) i hib]
            ring),
        Finset.sum_congr rfl (fun t ht => show
            (if i < b then (if t < b then x1 i t else Y (t - b) i)
              else (if t < b then Y (i - b) t else X1 (i - b) (t - b))) * S t (b + j')
            = S t (b + j') * x1 t i
          from by
            rw [if_pos hib, if_pos (Finset.mem_range.mp ht),
              hx1s i hib t (Finset.mem_range.mp ht)]
            ring),
        Finset.sum_congr rfl (fun t ht => show
            (if i < b then (if b + t < b then x1 i (b + t) else Y (b + t - b) i)
              else (if b + t < b then Y (i - b) (b + t) else X1 (i - b) (b + t - b)))
              * S (b + t) (b + j')
            = S (b + t) (b + j') * Y t i
          from by
            rw [if_pos hib, if_neg (by omega), show b + t - b = t by omega]
            ring)]
      simp only [Finset.sum_const_zero, add_zero]
      rw [hQs i hi (b + j') hj]
      have h2 := hY j' hj' i hib
      linear_combination h2
    · -- lower-left coupling region
      obtain ⟨i', rfl⟩ : ∃ i', i = b + i' := ⟨i - b, by omega⟩
      have hi' : i' < m - b := by omega
      rw [Finset.sum_congr rfl (fun t ht => show S t (b + i') *
            (if t < b then (if j < b then x1 t j else Y (j - b) t)
              else (if j < b then Y (t - b) j else X1 (t - b) (j - b))) = S t (b + i') * x1 t j
          from by rw [if_pos (Finset.mem_range.mp ht), if_pos hjb]),
        Finset.sum_congr rfl (fun t ht => show S (b + t) (b + i') *
            (if b + t < b then (if j < b then x1 (b + t) j else Y (j - b) (b + t))
              else (if j < b then Y (b + t - b) j else X1 (b + t - b) (j - b)))
            = S (b + t) (b + i') * Y t j
          from by rw [if_neg (by omega), if_pos hjb, show b + t - b = t by omega]),
        Finset.sum_congr rfl (fun t ht => show
            (if b + i' < b then (if t < b then x1 (b + i') t else Y (t - b) (b + i'))
              else (if t < b then Y (b + i' - b) t else X1 (b + i' - b) (t - b))) * S t j
            = Y i' t * S t j
          from by rw [if_neg (by omega), if_pos (Finset.mem_range.mp ht),
            show b + i' - b = i' by omega]),
        Finset.sum_congr rfl (fun t ht => show
            (if b + i' < b then (if b + t < b then x1 (b + i') (b + t) else Y (b + t - b) (b + i'))
              else (if b + t < b then Y (b + i' - b) (b + t) else X1 (b + i' - b) (b + t - b)))
              * S (b + t) j = 0
          from by
            rw [hLL (b + t) (by have := Finset.mem_range.mp ht; omega) (by omega) j hjb]
            ring)]
      simp only [Finset.sum_const_zero, add_zero]
      have h2 := hY i' hi' j hjb
      linear_combination h2
    · -- trailing region
      obtain ⟨i', rfl⟩ : ∃ i', i = b + i' := ⟨i - b, by omega⟩
      obtain ⟨j', rfl⟩ : ∃ j', j = b + j' := ⟨j - b, by omega⟩
      have hi' : i' < m - b := by omega
      have hj' : j' < m - b := by omega
      rw [Finset.sum_congr rfl (fun t ht => show S t (b + i') *
            (if t < b then (if b + j' < b then x1 t (b + j') else Y (b + j' - b) t)
              else (if b + j' < b then Y (t - b) (b + j') else X1 (t - b) (b + j' - b)))
            = S t (b + i') * Y j' t
          from by rw [if_pos (Finset.mem_range.mp ht), if_neg (by omega),
            show b + j' - b = j' by omega]),
        Finset.sum_congr rfl (fun t ht => show S (b + t) (b + i') *
            (if b + t < b then (if b + j' < b then x1 (b + t) (b + j') else Y (b + j' - b) (b + t))
              else (if b + j' < b then Y (b + t - b) (b + j') else X1 (b + t - b) (b + j' - b)))
            = S (b + t) (b + i') * X1 t j'
          from by rw [if_neg (by omega), if_neg (by omega),
            show b + t - b = t by omega, show b + j' - b = j' by omega]),
        Finset.sum_congr rfl (fun t ht => show
            (if b + i' < b then (if t < b then x1 (b + i') t else Y (t - b) (b + i'))
              else (if t < b then Y (b + i' - b) t else X1 (b + i' - b) (t - b))) * S t (b + j')
            = Y i' t * S t (b + j')
          from by rw [if_neg (by omega), if_pos (Finset.mem_range.mp ht),
            show b + i' - b = i' by omega]),
        Finset.sum_congr rfl (fun t ht => show
            (if b + i' < b then (if b + t < b then x1 (b + i') (b + t) else Y (b + t - b) (b + i'))
              else (if b + t < b then Y (b + i' - b) (b + t) else X1 (b + i' - b) (b + t - b)))
              * S (b + t) (b + j')
            = X1 i' t * S (b + t) (b + j')
          from by rw [if_neg (by omega), if_neg (by omega),
            show b + i' - b = i' by omega, show b + t - b = t by omega])]
      have h2 := hX1 i' hi' j' hj'
      linear_combination h2
  · intro i hi j hj
    simp only [asm]
    rcases Nat.lt_or_ge i b with hib | hib <;> rcases Nat.lt_or_ge j b with hjb | hjb
    · rw [if_pos hib, if_pos hjb, if_pos hjb, if_pos hib]
      exact hx1s i hib j hjb
    · rw [if_pos hib, if_neg (by omega), if_neg (by omega), if_pos hib]
    · rw [if_neg (by omega), if_pos hjb, if_pos hjb, if_neg (by omega)]
    · rw [if_neg (by omega), if_neg (by omega), if_neg (by omega), if_neg (by omega)]
      exact hX1s (i - b) (by omega) (j - b) (by omega)

/-- The corrected trailing right-hand side stays symmetric. -/
theorem recQ_symm (b m : ℕ) (S Q Y : Mat K) (hQs : SymmOn m Q) (hbm : b ≤ m) :
    SymmOn (m - b) (recQ b S Q Y) := by
  intro i hi j hj
  unfold recQ
  have e1 : ∑ t in Finset.range b, S t (b + j) * Y i t
      = ∑ t in Finset.range b, Y i t * S t (b + j) :=
    Finset.sum_congr rfl (fun t _ => mul_comm _ _)
  have e2 : ∑ t in Finset.range b, Y j t * S t (b + i)
      = ∑ t in Finset.range b, S t (b + i) * Y j t :=
    Finset.sum_congr rfl (fun t _ => mul_comm _ _)
  rw [hQs (b + i) (by omega) (b + j) (by omega), e1, e2]
  ring

/-- Correctness of the block back-substitution: a successful solve of the
reduced problem satisfies Sᵀ·X + X·S = −Q on the m × m region and returns a
symmetric X, given quasi-triangular S and symmetric Q. -/
theorem blockSolve_ok_eq : ∀ (m : ℕ) (S Q X : Mat K), quasiTri m S → SymmOn m Q →
    blockSolve m S Q = .ok X →
    (∀ i, i < m → ∀ j, j < m →
      (∑ t in Finset.range m, S t i * X t j) + (∑ t in Finset.range m, X i t * S t j)
        = -Q i j)
    ∧ SymmOn m X := by
  intro m
  induction m using Nat.strong_induction_on with
  | _ m IH =>
    rcases m with _ | _ | m
    · intro S Q X hq hQs hok
      exact ⟨fun i hi => absurd hi (by omega), fun i hi => absurd hi (by omega)⟩
    · intro S Q X hq hQs hok
      exact solve1_ok_eq S Q X hok
    · intro S Q X hq hQs hok
      rw [show blockSolve (m + 2) S Q
          = (if S 1 0 = 0 then do
              let x1 ← Solve1By1RealContinuousLyapunovEquation S Q
              let Y ← sylvCol (m + 1) 1 (matShift 1 1 S) S (offRHS 1 S Q x1)
              let X1 ← blockSolve (m + 1) (matShift 1 1 S) (recQ 1 S Q Y)
              .ok (asm 1 x1 Y X1)
            else do
              let x1 ← Solve2By2RealContinuousLyapunovEquation S Q
              let Y ← sylvCol m 2 (matShift 2 2 S) S (offRHS 2 S Q x1)
              let X1 ← blockSolve m (matShift 2 2 S) (recQ 2 S Q Y)
              .ok (asm 2 x1 Y X1)) from rfl] at hok
      by_cases h10 : S 1 0 = 0
      · rw [if_pos h10] at hok
        rcases hk : Solve1By1RealContinuousLyapunovEquation S Q with e | x1
        · rw [hk, exBind_err] at hok
          cases hok
        · rw [hk, exBind_ok] at hok
          rcases hk2 : sylvCol (m + 1) 1 (matShift 1 1 S) S (offRHS 1 S Q x1) with e | Y
          · rw [hk2, exBind_err] at hok
            cases hok
          · rw [hk2, exBind_ok] at hok
            rcases hk3 : blockSolve (m + 1) (matShift 1 1 S) (recQ 1 S Q Y) with e | X1
            · rw [hk3, exBind_err] at hok
              cases hok
            · rw [hk3, exBind_ok] at hok
              cases hok
              have hker := solve1_ok_eq S Q x1 hk
              have hqs := quasiTri_shift (m + 2) 1 S hq
              have hIH := IH (m + 1) (by omega) (matShift 1 1 S) (recQ 1 S Q Y) X1
                (by simpa using hqs)
                (by
                  have := recQ_symm 1 (m + 2) S Q Y hQs (by omega)
                  simpa using this)
                hk3
              have hYe := sylvCol_ok_eq (m + 1) 1 (matShift 1 1 S) S (offRHS 1 S Q x1) Y
                (Or.inl rfl) (by simpa using hqs) hk2
              exact peel_eq (m + 2) 1 S Q x1 Y X1 (by omega) (by omega)
                (lower_col_b1 (m + 2) S hq h10)
                hker.1 hker.2 hQs
                (fun i hi j hj => hYe i (by omega) j hj)
                (fun i hi j hj => hIH.1 i (by omega) j (by omega))
                (fun i hi j hj => hIH.2 i (by omega) j (by omega))
      · rw [if_neg h10] at hok
        rcases hk : Solve2By2RealContinuousLyapunovEquation S Q with e | x1
        · rw [hk, exBind_err] at hok
          cases hok
        · rw [hk, exBind_ok] at hok
          rcases hk2 : sylvCol m 2 (matShift 2 2 S) S (offRHS 2 S Q x1) with e | Y
          · rw [hk2, exBind_err] at hok
            cases hok
          · rw [hk2, exBind_ok] at hok
            rcases hk3 : blockSolve m (matShift 2 2 S) (recQ 2 S Q Y) with e | X1
            · rw [hk3, exBind_err] at hok
              cases hok
            · rw [hk3, exBind_ok] at hok
              cases hok
              have hker := solve2_ok_eq S Q x1
                (hQs 1 (by omega) 0 (by omega)) hk
              have hqs := quasiTri_shift (m + 2) 2 S hq
              have hIH := IH m (by omega) (matShift 2 2 S) (recQ 2 S Q Y) X1
                (by simpa using hqs)
                (by
                  have := recQ_symm 2 (m + 2) S Q Y hQs (by omega)
                  simpa using this)
                hk3
              have hYe := sylvCol_ok_eq m 2 (matShift 2 2 S) S (offRHS 2 S Q x1) Y
                (Or.inr rfl) (by simpa using hqs) hk2
              exact peel_eq (m + 2) 2 S Q x1 Y X1 (by omega) (by omega)
                (lower_col_b2 (m + 2) S hq h10)
                hker.1 hker.2 hQs
                (fun i hi j hj => hYe i (by omega) j hj)
                (fun i hi j hj => hIH.1 i (by omega) j (by omega))
                (fun i hi j hj => hIH.2 i (by omega) j (by omega))

theorem toM_mul (n : ℕ) (A B : Mat K) : toM n (matMul n A B) = toM n A * toM n B := by
  ext i j
  simp only [toM, matMul, Matrix.mul_apply, Matrix.of_apply]
  rw [← Fin.sum_univ_eq_sum_range (fun t => A i t * B t j) n]

theorem toM_trans (n : ℕ) (A : Mat K) : toM n (matTrans A) = (toM n A)ᵀ := by
  ext i j
  simp [toM, matTrans, Matrix.transpose_apply]

theorem toM_add (n : ℕ) (A B : Mat K) : toM n (matAdd A B) = toM n A + toM n B := by
  ext i j
  simp [toM, matAdd]

theorem toM_neg (n : ℕ) (A : Mat K) : toM n (matNeg A) = -(toM n A) := by
  ext i j
  simp [toM, matNeg]

theorem toM_id (n : ℕ) : toM n (matId : Mat K) = 1 := by
  ext i j
  by_cases h : i = j
  · subst h
    simp [toM, matId, Matrix.one_apply]
  · have : (i : ℕ) ≠ (j : ℕ) := fun hc => h (Fin.val_injective hc)
    simp [toM, matId, Matrix.one_apply, h, this]

theorem eqOn_toM (n : ℕ) (A B : Mat K) : EqOn n n A B ↔ toM n A = toM n B := by
  constructor
  · intro h
    ext i j
    exact h i i.isLt j j.isLt
  · intro h i hi j hj
    have := Matrix.ext_iff.mpr h ⟨i, hi⟩ ⟨j, hj⟩
    exact this

theorem symmOn_toM (n : ℕ) (A : Mat K) : SymmOn n A ↔ (toM n A)ᵀ = toM n A := by
  constructor
  · intro h
    ext i j
    exact h j j.isLt i i.isLt
  · intro h i hi j hj
    have := Matrix.ext_iff.mpr h ⟨j, hj⟩ ⟨i, hi⟩
    simpa [toM, Matrix.transpose_apply] using this

/-- The conjugation step of the facade: transporting the solved reduced
equation back through the orthogonal transform. -/
theorem conj_lyap (n : ℕ) (MU MT MXb MQ MA : Matrix (Fin n) (Fin n) K)
    (hO : MUᵀ * MU = 1)
    (hA : MA = MU * (MT * MUᵀ))
    (hE : MTᵀ * MXb + MXb * MT = -(MUᵀ * (MQ * MU))) :
    MAᵀ * (MU * (MXb * MUᵀ)) + (MU * (MXb * MUᵀ)) * MA = -MQ := by
  have hO' : MU * MUᵀ = 1 := Matrix.mul_eq_one_comm.mp hO
  subst hA
  simp only [Matrix.transpose_mul, Matrix.transpose_transpose]
  simp only [← Matrix.mul_assoc]
  rw [Matrix.mul_assoc (MU * MTᵀ) MUᵀ MU, hO, Matrix.mul_one,
    Matrix.mul_assoc (MU * MXb) MUᵀ MU, hO, Matrix.mul_one]
  have key : MU * MTᵀ * MXb * MUᵀ + MU * MXb * MT * MUᵀ
      = MU * (MTᵀ * MXb + MXb * MT) * MUᵀ := by
    rw [Matrix.mul_add, Matrix.add_mul]
    simp only [← Matrix.mul_assoc]
  rw [key, hE]
  simp only [Matrix.mul_neg, Matrix.neg_mul]
  simp only [← Matrix.mul_assoc]
  rw [hO', Matrix.one_mul, Matrix.mul_assoc MQ MU MUᵀ, hO', Matrix.mul_one]

/-- The transformed right-hand side Uᵀ·Q·U is symmetric when Q is. -/
theorem Qbar_symm (n : ℕ) (U Q : Mat K) (hQs : SymmOn n Q) :
    SymmOn n (matMul n (matTrans U) (matMul n Q U)) := by
  rw [symmOn_toM, toM_mul, toM_mul, toM_trans]
  rw [symmOn_toM] at hQs
  simp only [Matrix.transpose_mul, Matrix.transpose_transpose, hQs, Matrix.mul_assoc]

/-- U·X·Uᵀ is symmetric when X is. -/
theorem UXU_symm (n : ℕ) (U Xb : Mat K) (hXs : SymmOn n Xb) :
    SymmOn n (matMul n U (matMul n Xb (matTrans U))) := by
  rw [symmOn_toM, toM_mul, toM_mul, toM_trans]
  rw [symmOn_toM] at hXs
  simp only [Matrix.transpose_mul, Matrix.transpose_transpose, hXs, Matrix.mul_assoc]

/-- Entry-level block equation repackaged as a Mathlib matrix identity. -/
theorem eq_sums_toM (n : ℕ) (S X Q : Mat K)
    (h : ∀ i, i < n → ∀ j, j < n →
      (∑ t in Finset.range n, S t i * X t j) + (∑ t in Finset.range n, X i t * S t j)
        = -Q i j) :
    (toM n S)ᵀ * toM n X + toM n X * toM n S = -(toM n Q) := by
  ext i j
  simp only [Matrix.add_apply, Matrix.mul_apply, Matrix.neg_apply, Matrix.transpose_apply,
    toM, Matrix.of_apply]
  rw [Fin.sum_univ_eq_sum_range (fun t => S t (i : ℕ) * X t (j : ℕ)) n,
    Fin.sum_univ_eq_sum_range (fun t => X (i : ℕ) t * S t (j : ℕ)) n]
  exact h i i.isLt j j.isLt

/-- C1: whenever the decomposition capability returns an orthogonal U and a
quasi-upper-triangular T with A = U·T·Uᵀ (the real Schur contract), Q is
symmetric, and the facade returns a matrix X, that X solves Aᵀ·X + X·A = −Q
exactly on the n × n region (the exact-arithmetic idealisation of the
residual bound scaled by the norm of Q). -/
theorem C1_equation_residual : ∀ (K : Type) [Field K] [DecidableEq K]
    (dec : ℕ → Mat K → Option (Mat K × Mat K)) (A Q : DMat K) (T U : Mat K),
    dec A.rows A.entry = some (T, U) →
    EqOn A.rows A.rows (matMul A.rows (matTrans U) U) matId →
    EqOn A.rows A.rows A.entry (matMul A.rows U (matMul A.rows T (matTrans U))) →
    quasiTri A.rows T →
    SymmOn A.rows Q.entry →
    residualHolds dec A Q := by
  intro K _ _ dec A Q T U hdec hO hA hqT hQs X hok
  unfold RealContinuousLyapunovEquation at hok
  by_cases hv : (A.rows = A.cols ∧ Q.rows = Q.cols ∧ A.rows = Q.rows)
  case neg =>
    rw [if_neg hv] at hok
    cases hok
  rw [if_pos hv, hdec] at hok
  simp only [] at hok
  rcases hbs : blockSolve A.rows T (matMul A.rows (matTrans U) (matMul A.rows Q.entry U))
    with e | Xb
  · rw [hbs] at hok
    cases hok
  · rw [hbs] at hok
    cases hok
    have hbse := blockSolve_ok_eq A.rows T
      (matMul A.rows (matTrans U) (matMul A.rows Q.entry U)) Xb hqT
      (Qbar_symm A.rows U Q.entry hQs) hbs
    have hO2 : (toM A.rows U)ᵀ * toM A.rows U = 1 := by
      have := (eqOn_toM A.rows (matMul A.rows (matTrans U) U) matId).mp hO
      rwa [toM_mul, toM_trans, toM_id] at this
    have hA2 : toM A.rows A.entry
        = toM A.rows U * (toM A.rows T * (toM A.rows U)ᵀ) := by
      have := (eqOn_toM A.rows A.entry
        (matMul A.rows U (matMul A.rows T (matTrans U)))).mp hA
      rwa [toM_mul, toM_mul, toM_trans] at this
    have hE := eq_sums_toM A.rows T Xb
      (matMul A.rows (matTrans U) (matMul A.rows Q.entry U)) hbse.1
    rw [toM_mul, toM_mul, toM_trans] at hE
    rw [eqOn_toM]
    simp only [toM_add, toM_mul, toM_trans, toM_neg]
    exact conj_lyap A.rows (toM A.rows U) (toM A.rows T) (toM A.rows Xb)
      (toM A.rows Q.entry) (toM A.rows A.entry) hO2 hA2 hE

/-- Witness for C1 at the 3-by-3 instance of the Solve3by3Test2 data, where
A is its own real Schur form and U is the identity. -/
theorem C1_equation_residual_witness :
    quasiTri 3 (m3 (0:ℚ) 1 0 (-1) (-1) 0 0 0 (-1)) ∧
    residualHolds decId (⟨3, 3, m3 (0:ℚ) 1 0 (-1) (-1) 0 0 0 (-1)⟩ : DMat ℚ)
      ⟨3, 3, matId⟩ :=
  ⟨by
    constructor
    · intro i hi j hj hij
      interval_cases i <;> interval_cases j <;> norm_num [m3] <;> omega
    · intro i hi hi2
      interval_cases i <;> norm_num [m3],
   C1_equation_residual ℚ decId ⟨3, 3, m3 (0:ℚ) 1 0 (-1) (-1) 0 0 0 (-1)⟩ ⟨3, 3, matId⟩
    (m3 (0:ℚ) 1 0 (-1) (-1) 0 0 0 (-1)) matId rfl
    (by
      intro i hi j hj
      interval_cases i <;> interval_cases j <;>
        norm_num [matMul, matTrans, matId, Finset.sum_range_succ])
    (by
      intro i hi j hj
      interval_cases i <;> interval_cases j <;>
        norm_num [matMul, matTrans, matId, m3, Finset.sum_range_succ])
    (by
      constructor
      · intro i hi j hj hij
        interval_cases i <;> interval_cases j <;> norm_num [m3] <;> omega
      · intro i hi hi2
        interval_cases i <;> norm_num [m3])
    (by
      intro i hi j hj
      interval_cases i <;> interval_cases j <;> norm_num [matId])⟩

/-- C2: under the same real Schur contract with symmetric Q, any matrix the
facade returns is square of the input dimension and exactly symmetric (the
exact-arithmetic idealisation of X ≈ Xᵀ within tolerance). -/
theorem C2_solution_symmetric : ∀ (K : Type) [Field K] [DecidableEq K]
    (dec : ℕ → Mat K → Option (Mat K × Mat K)) (A Q : DMat K) (T U : Mat K),
    dec A.rows A.entry = some (T, U) →
    EqOn A.rows A.rows (matMul A.rows (matTrans U) U) matId →
    EqOn A.rows A.rows A.entry (matMul A.rows U (matMul A.rows T (matTrans U))) →
    quasiTri A.rows T →
    SymmOn A.rows Q.entry →
    symmHolds dec A Q := by
  intro K _ _ dec A Q T U hdec hO hA hqT hQs X hok
  unfold RealContinuousLyapunovEquation at hok
  by_cases hv : (A.rows = A.cols ∧ Q.rows = Q.cols ∧ A.rows = Q.rows)
  case neg =>
    rw [if_neg hv] at hok
    cases hok
  rw [if_pos hv, hdec] at hok
  simp only [] at hok
  rcases hbs : blockSolve A.rows T (matMul A.rows (matTrans U) (matMul A.rows Q.entry U))
    with e | Xb
  · rw [hbs] at hok
    cases hok
  · rw [hbs] at hok
    cases hok
    have hbse := blockSolve_ok_eq A.rows T
      (matMul A.rows (matTrans U) (matMul A.rows Q.entry U)) Xb hqT
      (Qbar_symm A.rows U Q.entry hQs) hbs
    exact ⟨rfl, rfl, UXU_symm A.rows U Xb hbse.2⟩

/-- Witness for C2 at a diagonal 2-by-2 instance with eigenvalues −1, −2. -/
theorem C2_solution_symmetric_witness :
    quasiTri 2 (m2 (-1:ℚ) 0 0 (-2)) ∧
    symmHolds decId (⟨2, 2, m2 (-1:ℚ) 0 0 (-2)⟩ : DMat ℚ) ⟨2, 2, matId⟩ :=
  ⟨by
    constructor
    · intro i hi j hj hij
      interval_cases i <;> interval_cases j <;> norm_num [m2] <;> omega
    · intro i hi hi2
      omega,
   C2_solution_symmetric ℚ decId ⟨2, 2, m2 (-1:ℚ) 0 0 (-2)⟩ ⟨2, 2, matId⟩
    (m2 (-1:ℚ) 0 0 (-2)) matId rfl
    (by
      intro i hi j hj
      interval_cases i <;> interval_cases j <;>
        norm_num [matMul, matTrans, matId, Finset.sum_range_succ])
    (by
      intro i hi j hj
      interval_cases i <;> interval_cases j <;>
        norm_num [matMul, matTrans, matId, m2, Finset.sum_range_succ])
    (by
      show quasiTri 2 (m2 (-1:ℚ) 0 0 (-2))
      constructor
      · intro i hi j hj hij
        interval_cases i <;> interval_cases j <;> norm_num [m2] <;> omega
      · intro i hi hi2
        omega)
    (by
      intro i hi j hj
      interval_cases i <;> interval_cases j <;> norm_num [matId])⟩

/-- The eigenvalue-pair-sum product is symmetric in its two blocks. -/
theorem pairPoly_comm (p q : Blk K) : pairPoly p q = pairPoly q p := by
  rcases p with t | ⟨a, b⟩ <;> rcases q with u | ⟨c, d⟩ <;> unfold pairPoly <;> ring

theorem sylvK11_ok_det (B C R Y : Mat K) (h : sylvK 1 1 B C R = .ok Y) :
    B 0 0 + C 0 0 ≠ 0 := by
  unfold sylvK at h
  by_cases h0 : B 0 0 + C 0 0 = 0
  · rw [if_pos h0] at h
    cases h
  · exact h0

theorem sylvK12_ok_det (B C R Y : Mat K) (h : sylvK 1 2 B C R = .ok Y) :
    det2 (B 0 0 + C 0 0) (C 1 0) (C 0 1) (B 0 0 + C 1 1) ≠ 0 := by
  unfold sylvK at h
  by_cases h0 : det2 (B 0 0 + C 0 0) (C 1 0) (C 0 1) (B 0 0 + C 1 1) = 0
  · rw [if_pos h0] at h
    cases h
  · exact h0

theorem sylvK21_ok_det (B C R Y : Mat K) (h : sylvK 2 1 B C R = .ok Y) :
    det2 (B 0 0 + C 0 0) (B 1 0) (B 0 1) (B 1 1 + C 0 0) ≠ 0 := by
  unfold sylvK at h
  by_cases h0 : det2 (B 0 0 + C 0 0) (B 1 0) (B 0 1) (B 1 1 + C 0 0) = 0
  · rw [if_pos h0] at h
    cases h
  · exact h0

theorem sylvK22_ok_det (B C R Y : Mat K) (h : sylvK 2 2 B C R = .ok Y) :
    det4 (B 0 0 + C 0 0) (C 1 0) (B 1 0) 0
      (C 0 1) (B 0 0 + C 1 1) 0 (B 1 0)
      (B 0 1) 0 (B 1 1 + C 0 0) (C 1 0)
      0 (B 0 1) (C 0 1) (B 1 1 + C 1 1) ≠ 0 := by
  unfold sylvK at h
  by_cases h0 : det4 (B 0 0 + C 0 0) (C 1 0) (B 1 0) 0
      (C 0 1) (B 0 0 + C 1 1) 0 (B 1 0)
      (B 0 1) 0 (B 1 1 + C 0 0) (C 1 0)
      0 (B 0 1) (C 0 1) (B 1 1 + C 1 1) = 0
  · rw [if_pos h0] at h
    cases h
  · exact h0

/-- The determinant of each small Sylvester kernel equals the
eigenvalue-pair-sum product of the two blocks involved. -/
theorem sylvK11_det_pair (B C : Mat K) :
    B 0 0 + C 0 0 = pairPoly (Blk.one (B 0 0)) (blkOf 1 C) := by
  unfold blkOf pairPoly
  norm_num

theorem sylvK12_det_pair (B C : Mat K) :
    det2 (B 0 0 + C 0 0) (C 1 0) (C 0 1) (B 0 0 + C 1 1)
      = pairPoly (Blk.one (B 0 0)) (blkOf 2 C) := by
  unfold blkOf pairPoly det2
  norm_num
  ring

theorem sylvK21_det_pair (B C : Mat K) :
    det2 (B 0 0 + C 0 0) (B 1 0) (B 0 1) (B 1 1 + C 0 0)
      = pairPoly (Blk.two (B 0 0 + B 1 1) (B 0 0 * B 1 1 - B 0 1 * B 1 0)) (blkOf 1 C) := by
  unfold blkOf pairPoly det2
  norm_num
  ring

theorem sylvK22_det_pair (B C : Mat K) :
    det4 (B 0 0 + C 0 0) (C 1 0) (B 1 0) 0
      (C 0 1) (B 0 0 + C 1 1) 0 (B 1 0)
      (B 0 1) 0 (B 1 1 + C 0 0) (C 1 0)
      0 (B 0 1) (C 0 1) (B 1 1 + C 1 1)
      = pairPoly (Blk.two (B 0 0 + B 1 1) (B 0 0 * B 1 1 - B 0 1 * B 1 0)) (blkOf 2 C) := by
  unfold blkOf pairPoly det4 det3
  norm_num
  ring

/-- A successful off-diagonal column solve certifies that no block of the
trailing partition pairs with the current diagonal block to an eigenvalue
sum of zero. -/
theorem sylvCol_ok_pairs : ∀ (m1 b2 : ℕ) (S1 C R Y : Mat K), b2 = 1 ∨ b2 = 2 →
    sylvCol m1 b2 S1 C R = .ok Y →
    ∀ p ∈ parts m1 S1, pairPoly p (blkOf b2 C) ≠ 0 := by
  intro m1
  induction m1 using Nat.strong_induction_on with
  | _ m1 IH =>
    rcases m1 with _ | _ | m
    · intro b2 S1 C R Y hb2 hok p hp
      simp [parts] at hp
    · intro b2 S1 C R Y hb2 hok p hp
      simp only [parts, List.mem_singleton] at hp
      subst hp
      rcases hb2 with rfl | rfl
      · exact fun hc => sylvK11_ok_det S1 C R Y hok (by rw [sylvK11_det_pair]; exact hc)
      · exact fun hc => sylvK12_ok_det S1 C R Y hok (by rw [sylvK12_det_pair]; exact hc)
    · intro b2 S1 C R Y hb2 hok p hp
      rw [show sylvCol (m + 2) b2 S1 C R
          = (if S1 1 0 = 0 then do
              let Y1 ← sylvK 1 b2 S1 C R
              let Y2 ← sylvCol (m + 1) b2 (matShift 1 1 S1) C
                (fun i j => R (1 + i) j - ∑ t in Finset.range 1, S1 t (1 + i) * Y1 t j)
              .ok (fun i j => if i < 1 then Y1 i j else Y2 (i - 1) j)
            else do
              let Y1 ← sylvK 2 b2 S1 C R
              let Y2 ← sylvCol m b2 (matShift 2 2 S1) C
                (fun i j => R (2 + i) j - ∑ t in Finset.range 2, S1 t (2 + i) * Y1 t j)
              .ok (fun i j => if i < 2 then Y1 i j else Y2 (i - 2) j)) from rfl] at hok
      by_cases h10 : S1 1 0 = 0
      · rw [if_pos h10] at hok
        rcases hk : sylvK 1 b2 S1 C R with e | Y1
        · rw [hk, exBind_err] at hok
          cases hok
        · rw [hk, exBind_ok] at hok
          rcases hk2 : sylvCol (m + 1) b2 (matShift 1 1 S1) C
              (fun i j => R (1 + i) j - ∑ t in Finset.range 1, S1 t (1 + i) * Y1 t j)
            with e | Y2
          · rw [hk2, exBind_err] at hok
            cases hok
          · simp only [parts, if_pos h10, List.mem_cons] at hp
            rcases hp with rfl | hp
            · rcases hb2 with rfl | rfl
              · exact fun hc => sylvK11_ok_det S1 C R Y1 hk (by rw [sylvK11_det_pair]; exact hc)
              · exact fun hc => sylvK12_ok_det S1 C R Y1 hk (by rw [sylvK12_det_pair]; exact hc)
            · exact IH (m + 1) (by omega) b2 (matShift 1 1 S1) C _ Y2 hb2 hk2 p hp
      · rw [if_neg h10] at hok
        rcases hk : sylvK 2 b2 S1 C R with e | Y1
        · rw [hk, exBind_err] at hok
          cases hok
        · rw [hk, exBind_ok] at hok
          rcases hk2 : sylvCol m b2 (matShift 2 2 S1) C
              (fun i j => R (2 + i) j - ∑ t in Finset.range 2, S1 t (2 + i) * Y1 t j)
            with e | Y2
          · rw [hk2, exBind_err] at hok
            cases hok
          · simp only [parts, if_neg h10, List.mem_cons] at hp
            rcases hp with rfl | hp
            · rcases hb2 with rfl | rfl
              · exact fun hc => sylvK21_ok_det S1 C R Y1 hk (by rw [sylvK21_det_pair]; exact hc)
              · exact fun hc => sylvK22_ok_det S1 C R Y1 hk (by rw [sylvK22_det_pair]; exact hc)
            · exact IH m (by omega) b2 (matShift 2 2 S1) C _ Y2 hb2 hk2 p hp

/-- A successful block solve certifies the full spectral uniqueness
condition: no two diagonal blocks of the partition (one block possibly taken
twice) contribute eigenvalues summing to zero. -/
theorem blockSolve_ok_pairs : ∀ (m : ℕ) (S Q X : Mat K),
    blockSolve m S Q = .ok X →
    ∀ p ∈ parts m S, ∀ q ∈ parts m S, pairPoly p q ≠ 0 := by
  intro m
  induction m using Nat.strong_induction_on with
  | _ m IH =>
    rcases m with _ | _ | m
    · intro S Q X hok p hp
      simp [parts] at hp
    · intro S Q X hok p hp q hq
      simp only [parts, List.mem_singleton] at hp hq
      subst hp
      subst hq
      have h1 := solve1_ok S Q X hok
      intro hc
      apply h1.1
      unfold pairPoly at hc
      linear_combination hc
    · intro S Q X hok p hp q hq
      rw [show blockSolve (m + 2) S Q
          = (if S 1 0 = 0 then do
              let x1 ← Solve1By1RealContinuousLyapunovEquation S Q
              let Y ← sylvCol (m + 1) 1 (matShift 1 1 S) S (offRHS 1 S Q x1)
              let X1 ← blockSolve (m + 1) (matShift 1 1 S) (recQ 1 S Q Y)
              .ok (asm 1 x1 Y X1)
            else do
              let x1 ← Solve2By2RealContinuousLyapunovEquation S Q
              let Y ← sylvCol m 2 (matShift 2 2 S) S (offRHS 2 S Q x1)
              let X1 ← blockSolve m (matShift 2 2 S) (recQ 2 S Q Y)
              .ok (asm 2 x1 Y X1)) from rfl] at hok
      by_cases h10 : S 1 0 = 0
      · rw [if_pos h10] at hok
        rcases hk : Solve1By1RealContinuousLyapunovEquation S Q with e | x1
        · rw [hk, exBind_err] at hok
          cases hok
        · rw [hk, exBind_ok] at hok
          rcases hk2 : sylvCol (m + 1) 1 (matShift 1 1 S) S (offRHS 1 S Q x1) with e | Y
          · rw [hk2, exBind_err] at hok
            cases hok
          · rw [hk2, exBind_ok] at hok
            rcases hk3 : blockSolve (m + 1) (matShift 1 1 S) (recQ 1 S Q Y) with e | X1
            · rw [hk3, exBind_err] at hok
              cases hok
            · simp only [parts, if_pos h10, List.mem_cons] at hp hq
              have hhead : blkOf 1 S = Blk.one (S 0 0) := by
                unfold blkOf
                norm_num
              rcases hp with rfl | hp <;> rcases hq with rfl | hq
              · have h1 := solve1_ok S Q x1 hk
                intro hc
                apply h1.1
                unfold pairPoly at hc
                linear_combination hc
              · intro hc
                apply sylvCol_ok_pairs (m + 1) 1 (matShift 1 1 S) S (offRHS 1 S Q x1) Y
                  (Or.inl rfl) hk2 q hq
                rw [hhead, pairPoly_comm]
                exact hc
              · intro hc
                apply sylvCol_ok_pairs (m + 1) 1 (matShift 1 1 S) S (offRHS 1 S Q x1) Y
                  (Or.inl rfl) hk2 p hp
                rw [hhead]
                exact hc
              · exact IH (m + 1) (by omega) (matShift 1 1 S) (recQ 1 S Q Y) X1 hk3 p hp q hq
      · rw [if_neg h10] at hok
        rcases hk : Solve2By2RealContinuousLyapunovEquation S Q with e | x1
        · rw [hk, exBind_err] at hok
          cases hok
        · rw [hk, exBind_ok] at hok
          rcases hk2 : sylvCol m 2 (matShift 2 2 S) S (offRHS 2 S Q x1) with e | Y
          · rw [hk2, exBind_err] at hok
            cases hok
          · rw [hk2, exBind_ok] at hok
            rcases hk3 : blockSolve m (matShift 2 2 S) (recQ 2 S Q Y) with e | X1
            · rw [hk3, exBind_err] at hok
              cases hok
            · simp only [parts, if_neg h10, List.mem_cons] at hp hq
              have hhead : blkOf 2 S
                  = Blk.two (S 0 0 + S 1 1) (S 0 0 * S 1 1 - S 0 1 * S 1 0) := by
                unfold blkOf
                norm_num
              have hdet := (solve2_ok S Q x1 hk).1
              rw [solve2_det] at hdet
              have htr : S 0 0 + S 1 1 ≠ 0 := by
                intro hc
                apply hdet
                rw [hc]
                ring
              rcases hp with rfl | hp <;> rcases hq with rfl | hq
              · intro hc
                have hfac : pairPoly
                    (Blk.two (S 0 0 + S 1 1) (S 0 0 * S 1 1 - S 0 1 * S 1 0))
                    (Blk.two (S 0 0 + S 1 1) (S 0 0 * S 1 1 - S 0 1 * S 1 0))
                    = (4 * ((S 0 0 + S 1 1) * (S 0 0 * S 1 1 - S 0 1 * S 1 0)))
                      * (S 0 0 + S 1 1) := by
                  unfold pairPoly
                  ring
                rw [hfac] at hc
                rcases mul_eq_zero.mp hc with hc1 | hc2
                · exact hdet hc1
                · exact htr hc2
              · intro hc
                apply sylvCol_ok_pairs m 2 (matShift 2 2 S) S (offRHS 2 S Q x1) Y
                  (Or.inr rfl) hk2 q hq
                rw [hhead, pairPoly_comm]
                exact hc
              · intro hc
                apply sylvCol_ok_pairs m 2 (matShift 2 2 S) S (offRHS 2 S Q x1) Y
                  (Or.inr rfl) hk2 p hp
                rw [hhead]
                exact hc
              · exact IH m (by omega) (matShift 2 2 S) (recQ 2 S Q Y) X1 hk3 p hp q hq

/-- Every failure of a small Sylvester kernel is a SingularSystem error. -/
theorem sylvK_err (b1 b2 : ℕ) (B C R : Mat K) (e : LyapErr)
    (h : sylvK b1 b2 B C R = .error e) : e = .SingularSystem := by
  unfold sylvK at h
  split at h
  all_goals try simp only [] at h
  all_goals try split at h
  all_goals cases h
  all_goals rfl

/-- Every failure of the off-diagonal column solver is a SingularSystem
error. -/
theorem sylvCol_err : ∀ (m1 b2 : ℕ) (S1 C R : Mat K) (e : LyapErr),
    sylvCol m1 b2 S1 C R = .error e → e = .SingularSystem := by
  intro m1
  induction m1 using Nat.strong_induction_on with
  | _ m1 IH =>
    rcases m1 with _ | _ | m
    · intro b2 S1 C R e h
      cases h
    · intro b2 S1 C R e h
      exact sylvK_err 1 b2 S1 C R e h
    · intro b2 S1 C R e h
      rw [show sylvCol (m + 2) b2 S1 C R
          = (if S1 1 0 = 0 then do
              let Y1 ← sylvK 1 b2 S1 C R
              let Y2 ← sylvCol (m + 1) b2 (matShift 1 1 S1) C
                (fun i j => R (1 + i) j - ∑ t in Finset.range 1, S1 t (1 + i) * Y1 t j)
              .ok (fun i j => if i < 1 then Y1 i j else Y2 (i - 1) j)
            else do
              let Y1 ← sylvK 2 b2 S1 C R
              let Y2 ← sylvCol m b2 (matShift 2 2 S1) C
                (fun i j => R (2 + i) j - ∑ t in Finset.range 2, S1 t (2 + i) * Y1 t j)
              .ok (fun i j => if i < 2 then Y1 i j else Y2 (i - 2) j)) from rfl] at h
      by_cases h10 : S1 1 0 = 0
      · rw [if_pos h10] at h
        rcases hk : sylvK 1 b2 S1 C R with e1 | Y1
        · rw [hk, exBind_err] at h
          cases h
          exact sylvK_err 1 b2 S1 C R e hk
        · rw [hk, exBind_ok] at h
          rcases hk2 : sylvCol (m + 1) b2 (matShift 1 1 S1) C
              (fun i j => R (1 + i) j - ∑ t in Finset.range 1, S1 t (1 + i) * Y1 t j)
            with e2 | Y2
          · rw [hk2, exBind_err] at h
            cases h
            exact IH (m + 1) (by omega) b2 (matShift 1 1 S1) C _ e hk2
          · rw [hk2, exBind_ok] at h
            cases h
      · rw [if_neg h10] at h
        rcases hk : sylvK 2 b2 S1 C R with e1 | Y1
        · rw [hk, exBind_err] at h
          cases h
          exact sylvK_err 2 b2 S1 C R e hk
        · rw [hk, exBind_ok] at h
          rcases hk2 : sylvCol m b2 (matShift 2 2 S1) C
              (fun i j => R (2 + i) j - ∑ t in Finset.range 2, S1 t (2 + i) * Y1 t j)
            with e2 | Y2
          · rw [hk2, exBind_err] at h
            cases h
            exact IH m (by omega) b2 (matShift 2 2 S1) C _ e hk2
          · rw [hk2, exBind_ok] at h
            cases h

/-- Every failure of the block solver is a SingularSystem error. -/
theorem blockSolve_err : ∀ (m : ℕ) (S Q : Mat K) (e : LyapErr),
    blockSolve m S Q = .error e → e = .SingularSystem := by
  intro m
  induction m using Nat.strong_induction_on with
  | _ m IH =>
    rcases m with _ | _ | m
    · intro S Q e h
      cases h
    · intro S Q e h
      unfold blockSolve Solve1By1RealContinuousLyapunovEquation at h
      split at h
      · cases h
        rfl
      · cases h
    · intro S Q e h
      rw [show blockSolve (m + 2) S Q
          = (if S 1 0 = 0 then do
              let x1 ← Solve1By1RealContinuousLyapunovEquation S Q
              let Y ← sylvCol (m + 1) 1 (matShift 1 1 S) S (offRHS 1 S Q x1)
              let X1 ← blockSolve (m + 1) (matShift 1 1 S) (recQ 1 S Q Y)
              .ok (asm 1 x1 Y X1)
            else do
              let x1 ← Solve2By2RealContinuousLyapunovEquation S Q
              let Y ← sylvCol m 2 (matShift 2 2 S) S (offRHS 2 S Q x1)
              let X1 ← blockSolve m (matShift 2 2 S) (recQ 2 S Q Y)
              .ok (asm 2 x1 Y X1)) from rfl] at h
      by_cases h10 : S 1 0 = 0
      · rw [if_pos h10] at h
        rcases hk : Solve1By1RealContinuousLyapunovEquation S Q with e1 | x1
        · rw [hk, exBind_err] at h
          cases h
          unfold Solve1By1RealContinuousLyapunovEquation at hk
          split at hk
          · cases hk
            rfl
          · cases hk
        · rw [hk, exBind_ok] at h
          rcases hk2 : sylvCol (m + 1) 1 (matShift 1 1 S) S (offRHS 1 S Q x1) with e2 | Y
          · rw [hk2, exBind_err] at h
            cases h
            exact sylvCol_err (m + 1) 1 (matShift 1 1 S) S (offRHS 1 S Q x1) e hk2
          · rw [hk2, exBind_ok] at h
            rcases hk3 : blockSolve (m + 1) (matShift 1 1 S) (recQ 1 S Q Y) with e3 | X1
            · rw [hk3, exBind_err] at h
              cases h
              exact IH (m + 1) (by omega) (matShift 1 1 S) (recQ 1 S Q Y) e hk3
            · rw [hk3, exBind_ok] at h
              cases h
      · rw [if_neg h10] at h
        rcases hk : Solve2By2RealContinuousLyapunovEquation S Q with e1 | x1
        · rw [hk, exBind_err] at h
          cases h
          unfold Solve2By2RealContinuousLyapunovEquation at hk
          simp only [] at hk
          split at hk
          · cases hk
            rfl
          · cases hk
        · rw [hk, exBind_ok] at h
          rcases hk2 : sylvCol m 2 (matShift 2 2 S) S (offRHS 2 S Q x1) with e2 | Y
          · rw [hk2, exBind_err] at h
            cases h
            exact sylvCol_err m 2 (matShift 2 2 S) S (offRHS 2 S Q x1) e hk2
          · rw [hk2, exBind_ok] at h
            rcases hk3 : blockSolve m (matShift 2 2 S) (recQ 2 S Q Y) with e3 | X1
            · rw [hk3, exBind_err] at h
              cases h
              exact IH m (by omega) (matShift 2 2 S) (recQ 2 S Q Y) e hk3
            · rw [hk3, exBind_ok] at h
              cases h

/-- C3: for a square same-size input whose decomposition meets the real
Schur contract, if the spectrum violates the uniqueness condition — some
diagonal block or pair of diagonal blocks of the quasi-triangular form
carries eigenvalues summing to zero (a zero eigenvalue, a conjugate pair
with vanishing trace, or a cancelling real pair, the exact-arithmetic
reading of the tolerance test) — the facade fails with SingularSystem and
returns no partial result (the error value carries no matrix). -/
theorem C3_singular_system : ∀ (K : Type) [Field K] [DecidableEq K]
    (dec : ℕ → Mat K → Option (Mat K × Mat K)) (A Q : DMat K) (T U : Mat K),
    A.rows = A.cols → Q.rows = Q.cols → A.rows = Q.rows →
    dec A.rows A.entry = some (T, U) →
    EqOn A.rows A.rows (matMul A.rows (matTrans U) U) matId →
    EqOn A.rows A.rows A.entry (matMul A.rows U (matMul A.rows T (matTrans U))) →
    quasiTri A.rows T →
    specViolation (parts A.rows T) →
    RealContinuousLyapunovEquation dec A Q = .error .SingularSystem := by
  intro K _ _ dec A Q T U h1 h2 h3 hdec hO hA hqT hviol
  unfold RealContinuousLyapunovEquation
  rw [if_pos ⟨h1, h2, h3⟩, hdec]
  simp only []
  rcases hbs : blockSolve A.rows T (matMul A.rows (matTrans U) (matMul A.rows Q.entry U))
    with e | Xb
  · rw [blockSolve_err A.rows T
      (matMul A.rows (matTrans U) (matMul A.rows Q.entry U)) e hbs]
  · obtain ⟨p, hp, q, hq, hpq⟩ := hviol
    exact absurd hpq (blockSolve_ok_pairs A.rows T
      (matMul A.rows (matTrans U) (matMul A.rows Q.entry U)) Xb hbs p hp q hq)

/-- Witness for C3 at A = diag(1, −1): a real eigenvalue pair summing to
zero, detected as a SingularSystem failure. -/
theorem C3_singular_system_witness :
    specViolation (parts 2 (m2 (1:ℚ) 0 0 (-1))) ∧
    RealContinuousLyapunovEquation decId (⟨2, 2, m2 (1:ℚ) 0 0 (-1)⟩ : DMat ℚ)
      ⟨2, 2, matId⟩ = .error .SingularSystem := by
  have hv : specViolation (parts 2 (m2 (1:ℚ) 0 0 (-1))) := by
    refine ⟨Blk.one 1, ?_, Blk.one (-1), ?_, by norm_num [pairPoly]⟩
    · simp [parts, m2, matShift]
    · simp [parts, m2, matShift]
  refine ⟨hv, ?_⟩
  exact C3_singular_system ℚ decId ⟨2, 2, m2 (1:ℚ) 0 0 (-1)⟩ ⟨2, 2, matId⟩
    (m2 (1:ℚ) 0 0 (-1)) matId rfl rfl rfl rfl
    (by
      intro i hi j hj
      interval_cases i <;> interval_cases j <;>
        norm_num [matMul, matTrans, matId, Finset.sum_range_succ])
    (by
      intro i hi j hj
      interval_cases i <;> interval_cases j <;>
        norm_num [matMul, matTrans, matId, m2, Finset.sum_range_succ])
    (by
      show quasiTri 2 (m2 (1:ℚ) 0 0 (-1))
      constructor
      · intro i hi j hj hij
        interval_cases i <;> interval_cases j <;> norm_num [m2] <;> omega
      · intro i hi hi2
        omega)
    hv

/-- Uniqueness of the Lyapunov solution for the Solve2by2Test data: the four
component equations of Aᵀ·X + X·A = −Q with A = [[1,−3],[2,−4]] and
Q = [[3,1],[1,1]] pin X down to [[37/6,−23/6],[−23/6,3]]. -/
theorem c6_unique (MX : Matrix (Fin 2) (Fin 2) ℝ)
    (heq : (toM 2 (m2 (1:ℝ) (-3) 2 (-4)))ᵀ * MX + MX * toM 2 (m2 (1:ℝ) (-3) 2 (-4))
      = -(toM 2 (m2 (3:ℝ) 1 1 1))) :
    MX = toM 2 (m2 (37/6 : ℝ) (-(23/6)) (-(23/6)) 3) := by
  have h00 := Matrix.ext_iff.mpr heq 0 0
  have h01 := Matrix.ext_iff.mpr heq 0 1
  have h10 := Matrix.ext_iff.mpr heq 1 0
  have h11 := Matrix.ext_iff.mpr heq 1 1
  simp only [Matrix.add_apply, Matrix.mul_apply, Matrix.neg_apply, Matrix.transpose_apply,
    Fin.sum_univ_two, toM, Matrix.of_apply, Fin.val_zero, Fin.val_one] at h00 h01 h10 h11
  norm_num [m2] at h00 h01 h10 h11
  ext i j
  fin_cases i <;> fin_cases j <;>
    simp only [toM, Matrix.of_apply, Fin.val_zero, Fin.val_one] <;> norm_num [m2]
  · linear_combination (-3/2 : ℝ) * h00 - (2/3 : ℝ) * h01 - (2/3 : ℝ) * h10 - (1/3 : ℝ) * h11
  · linear_combination (1 : ℝ) * h00 + (1/6 : ℝ) * h01 + (1/2 : ℝ) * h10 + (1/6 : ℝ) * h11
  · linear_combination (1 : ℝ) * h00 + (1/2 : ℝ) * h01 + (1/6 : ℝ) * h10 + (1/6 : ℝ) * h11
  · linear_combination (-3/4 : ℝ) * h00 - (1/4 : ℝ) * h01 - (1/4 : ℝ) * h10 - (1/4 : ℝ) * h11

/-- C6: on the Solve2by2Test data — the facade invoked on Aᵀ = [[1,−3],[2,−4]]
with Q = [[3,1],[1,1]] — the internal 2-by-2 kernel returns exactly
X = [[37/6,−23/6],[−23/6,3]] ≈ [[6.1667,−3.8333],[−3.8333,3]] even with a
garbage lower-left right-hand-side entry (the test's NaN), and the full
solver returns the same X for every decomposition satisfying the real Schur
contract for this matrix. -/
theorem C6_two_by_two_case :
    (oEntry (Solve2By2RealContinuousLyapunovEquation (m2 (1:ℚ) (-3) 2 (-4)) (m2 3 1 999 1)) 0 0
        = some (37/6) ∧
      oEntry (Solve2By2RealContinuousLyapunovEquation (m2 (1:ℚ) (-3) 2 (-4)) (m2 3 1 999 1)) 0 1
        = some (-(23/6)) ∧
      oEntry (Solve2By2RealContinuousLyapunovEquation (m2 (1:ℚ) (-3) 2 (-4)) (m2 3 1 999 1)) 1 0
        = some (-(23/6)) ∧
      oEntry (Solve2By2RealContinuousLyapunovEquation (m2 (1:ℚ) (-3) 2 (-4)) (m2 3 1 999 1)) 1 1
        = some 3) ∧
    (∀ (dec : ℕ → Mat ℝ → Option (Mat ℝ × Mat ℝ)) (T U : Mat ℝ),
      dec 2 (m2 (1:ℝ) (-3) 2 (-4)) = some (T, U) →
      EqOn 2 2 (matMul 2 (matTrans U) U) matId →
      EqOn 2 2 (m2 (1:ℝ) (-3) 2 (-4)) (matMul 2 U (matMul 2 T (matTrans U))) →
      quasiTri 2 T →
      okShapedEntries (RealContinuousLyapunovEquation dec
        (⟨2, 2, m2 (1:ℝ) (-3) 2 (-4)⟩ : DMat ℝ) ⟨2, 2, m2 3 1 1 1⟩) 2
        (m2 (37/6 : ℝ) (-(23/6)) (-(23/6)) 3)) := by
  constructor
  · refine ⟨?_, ?_, ?_, ?_⟩ <;>
      norm_num [oEntry, Solve2By2RealContinuousLyapunovEquation, m2, det3]
  · intro dec T U hdec hO hA hqT
    have hQs : SymmOn 2 (m2 (3:ℝ) 1 1 1) := by
      intro i hi j hj
      interval_cases i <;> interval_cases j <;> norm_num [m2]
    have hO2 : (toM 2 U)ᵀ * toM 2 U = 1 := by
      have := (eqOn_toM 2 (matMul 2 (matTrans U) U) matId).mp hO
      rwa [toM_mul, toM_trans, toM_id] at this
    have hA2 : toM 2 (m2 (1:ℝ) (-3) 2 (-4))
        = toM 2 U * (toM 2 T * (toM 2 U)ᵀ) := by
      have := (eqOn_toM 2 (m2 (1:ℝ) (-3) 2 (-4))
        (matMul 2 U (matMul 2 T (matTrans U)))).mp hA
      rwa [toM_mul, toM_mul, toM_trans] at this
    have hOO : toM 2 U * (toM 2 U)ᵀ = 1 := Matrix.mul_eq_one_comm.mp hO2
    have hTr : T 0 0 + T 1 1 = -3 := by
      have h1 : Matrix.trace (toM 2 (m2 (1:ℝ) (-3) 2 (-4))) = Matrix.trace (toM 2 T) := by
        rw [hA2, Matrix.trace_mul_comm, Matrix.mul_assoc, hO2, Matrix.mul_one]
      rw [Matrix.trace_fin_two, Matrix.trace_fin_two] at h1
      simp only [toM, Matrix.of_apply, Fin.val_zero, Fin.val_one] at h1
      norm_num [m2] at h1
      linarith [h1]
    have hDet : T 0 0 * T 1 1 - T 0 1 * T 1 0 = 2 := by
      have h2 : (toM 2 U).det * ((toM 2 U)ᵀ).det = 1 := by
        rw [← Matrix.det_mul, hOO, Matrix.det_one]
      have h1 : (toM 2 (m2 (1:ℝ) (-3) 2 (-4))).det = (toM 2 T).det := by
        rw [hA2, Matrix.det_mul, Matrix.det_mul]
        linear_combination (toM 2 T).det * h2
      rw [Matrix.det_fin_two, Matrix.det_fin_two] at h1
      simp only [toM, Matrix.of_apply, Fin.val_zero, Fin.val_one] at h1
      norm_num [m2] at h1
      linarith [h1]
    unfold RealContinuousLyapunovEquation
    rw [if_pos (by norm_num)]
    simp only []
    rw [hdec]
    simp only []
    rcases hbs : blockSolve 2 T (matMul 2 (matTrans U) (matMul 2 (m2 (3:ℝ) 1 1 1) U))
      with e | Xb
    · exfalso
      rw [show blockSolve 2 T (matMul 2 (matTrans U) (matMul 2 (m2 (3:ℝ) 1 1 1) U))
          = (if T 1 0 = 0 then do
              let x1 ← Solve1By1RealContinuousLyapunovEquation T
                (matMul 2 (matTrans U) (matMul 2 (m2 (3:ℝ) 1 1 1) U))
              let Y ← sylvCol 1 1 (matShift 1 1 T) T
                (offRHS 1 T (matMul 2 (matTrans U) (matMul 2 (m2 (3:ℝ) 1 1 1) U)) x1)
              let X1 ← blockSolve 1 (matShift 1 1 T)
                (recQ 1 T (matMul 2 (matTrans U) (matMul 2 (m2 (3:ℝ) 1 1 1) U)) Y)
              .ok (asm 1 x1 Y X1)
            else do
              let x1 ← Solve2By2RealContinuousLyapunovEquation T
                (matMul 2 (matTrans U) (matMul 2 (m2 (3:ℝ) 1 1 1) U))
              let Y ← sylvCol 0 2 (matShift 2 2 T) T
                (offRHS 2 T (matMul 2 (matTrans U) (matMul 2 (m2 (3:ℝ) 1 1 1) U)) x1)
              let X1 ← blockSolve 0 (matShift 2 2 T)
                (recQ 2 T (matMul 2 (matTrans U) (matMul 2 (m2 (3:ℝ) 1 1 1) U)) Y)
              .ok (asm 2 x1 Y X1)) from rfl] at hbs
      by_cases h10 : T 1 0 = 0
      · have hT00T11 : T 0 0 * T 1 1 = 2 := by
          rw [h10, mul_zero, sub_zero] at hDet
          exact hDet
        have hT00 : T 0 0 ≠ 0 := fun hc => by
          rw [hc, zero_mul] at hT00T11
          norm_num at hT00T11
        have hT11 : T 1 1 ≠ 0 := fun hc => by
          rw [hc, mul_zero] at hT00T11
          norm_num at hT00T11
        have h2t : (2 : ℝ) * T 0 0 ≠ 0 := mul_ne_zero (by norm_num) hT00
        have hsh : matShift 1 1 T 0 0 = T 1 1 := by
          unfold matShift
          norm_num
        have h2t1 : (2 : ℝ) * matShift 1 1 T 0 0 ≠ 0 := by
          rw [hsh]
          exact mul_ne_zero (by norm_num) hT11
        have hΔ2 : matShift 1 1 T 0 0 + T 0 0 ≠ 0 := by
          rw [hsh]
          intro hc
          have h3 : T 0 0 + T 1 1 = 0 := by linarith
          rw [hTr] at h3
          norm_num at h3
        rw [if_pos h10] at hbs
        rcases hk : Solve1By1RealContinuousLyapunovEquation T
            (matMul 2 (matTrans U) (matMul 2 (m2 (3:ℝ) 1 1 1) U)) with e1 | x1
        · unfold Solve1By1RealContinuousLyapunovEquation at hk
          rw [if_neg h2t] at hk
          cases hk
        · rw [hk, exBind_ok] at hbs
          rcases hk2 : sylvCol 1 1 (matShift 1 1 T) T
              (offRHS 1 T (matMul 2 (matTrans U) (matMul 2 (m2 (3:ℝ) 1 1 1) U)) x1)
            with e2 | Y
          · rw [show sylvCol 1 1 (matShift 1 1 T) T
                (offRHS 1 T (matMul 2 (matTrans U) (matMul 2 (m2 (3:ℝ) 1 1 1) U)) x1)
                = sylvK 1 1 (matShift 1 1 T) T
                  (offRHS 1 T (matMul 2 (matTrans U) (matMul 2 (m2 (3:ℝ) 1 1 1) U)) x1)
              from rfl] at hk2
            unfold sylvK at hk2
            simp only [] at hk2
            rw [if_neg hΔ2] at hk2
            cases hk2
          · rw [hk2, exBind_ok] at hbs
            rcases hk3 : blockSolve 1 (matShift 1 1 T)
                (recQ 1 T (matMul 2 (matTrans U) (matMul 2 (m2 (3:ℝ) 1 1 1) U)) Y)
              with e3 | X1
            · rw [show blockSolve 1 (matShift 1 1 T)
                  (recQ 1 T (matMul 2 (matTrans U) (matMul 2 (m2 (3:ℝ) 1 1 1) U)) Y)
                  = Solve1By1RealContinuousLyapunovEquation (matShift 1 1 T)
                    (recQ 1 T (matMul 2 (matTrans U) (matMul 2 (m2 (3:ℝ) 1 1 1) U)) Y)
                from rfl] at hk3
              unfold Solve1By1RealContinuousLyapunovEquation at hk3
              rw [if_neg h2t1] at hk3
              cases hk3
            · rw [hk3, exBind_ok] at hbs
              cases hbs
      · have hd3 : det3 (2 * T 0 0) (2 * T 1 0) 0 (T 0 1) (T 0 0 + T 1 1) (T 1 0) 0
            (2 * T 0 1) (2 * T 1 1) ≠ 0 := by
          rw [solve2_det, hTr, hDet]
          norm_num
        rw [if_neg h10] at hbs
        rcases hk : Solve2By2RealContinuousLyapunovEquation T
            (matMul 2 (matTrans U) (matMul 2 (m2 (3:ℝ) 1 1 1) U)) with e1 | x1
        · unfold Solve2By2RealContinuousLyapunovEquation at hk
          simp only [] at hk
          rw [if_neg hd3] at hk
          cases hk
        · rw [hk, exBind_ok] at hbs
          rw [show sylvCol 0 2 (matShift 2 2 T) T
              (offRHS 2 T (matMul 2 (matTrans U) (matMul 2 (m2 (3:ℝ) 1 1 1) U)) x1)
              = .ok matZero from rfl, exBind_ok] at hbs
          rw [show blockSolve 0 (matShift 2 2 T)
              (recQ 2 T (matMul 2 (matTrans U) (matMul 2 (m2 (3:ℝ) 1 1 1) U)) matZero)
              = .ok matZero from rfl, exBind_ok] at hbs
          cases hbs
    · have hbse := blockSolve_ok_eq 2 T
        (matMul 2 (matTrans U) (matMul 2 (m2 (3:ℝ) 1 1 1) U)) Xb hqT
        (Qbar_symm 2 U (m2 (3:ℝ) 1 1 1) hQs) hbs
      have hE := eq_sums_toM 2 T Xb
        (matMul 2 (matTrans U) (matMul 2 (m2 (3:ℝ) 1 1 1) U)) hbse.1
      rw [toM_mul, toM_mul, toM_trans] at hE
      have hconj := conj_lyap 2 (toM 2 U) (toM 2 T) (toM 2 Xb)
        (toM 2 (m2 (3:ℝ) 1 1 1)) (toM 2 (m2 (1:ℝ) (-3) 2 (-4))) hO2 hA2 hE
      have hXfin := c6_unique (toM 2 U * (toM 2 Xb * (toM 2 U)ᵀ)) hconj
      refine ⟨rfl, rfl, ?_⟩
      rw [eqOn_toM, toM_mul, toM_mul, toM_trans]
      exact hXfin

/-- Witness for C6: the contract hypotheses hold concretely for the
identity transform (the input, having a nonzero sub-diagonal entry, is its
own 2-by-2-block quasi-triangular form), and the facade then returns the
expected solution. -/
theorem C6_two_by_two_case_witness :
    okShapedEntries (RealContinuousLyapunovEquation decId
      (⟨2, 2, m2 (1:ℝ) (-3) 2 (-4)⟩ : DMat ℝ) ⟨2, 2, m2 3 1 1 1⟩) 2
      (m2 (37/6 : ℝ) (-(23/6)) (-(23/6)) 3) :=
  C6_two_by_two_case.2 decId (m2 (1:ℝ) (-3) 2 (-4)) matId rfl
    (by
      intro i hi j hj
      interval_cases i <;> interval_cases j <;>
        norm_num [matMul, matTrans, matId, Finset.sum_range_succ])
    (by
      intro i hi j hj
      interval_cases i <;> interval_cases j <;>
        norm_num [matMul, matTrans, matId, m2, Finset.sum_range_succ])
    (by
      constructor
      · intro i hi j hj hij
        omega
      · intro i hi hi2
        omega)

/-- Witness for the amended C10 at a concrete environment with
TEST_TMPDIR=/tmp/x. -/
theorem C10_amended_temp_directory_witness :
    ∃ p, (TempFsEnv.mk (some ("/tmp/x".toList)) none (fun _ => none)
        (fun s => decide (s = "/tmp/x".toList))).isDir p = true ∧
      "/tmp/x".toList = stripTrailingSlash p ∧
      (∀ v, (TempFsEnv.mk (some ("/tmp/x".toList)) none (fun _ => none)
        (fun s => decide (s = "/tmp/x".toList))).testTmpdir = some v → p = v) ∧
      (¬ endsTwoSlash p → ¬ endsSlash ("/tmp/x".toList)) :=
  C10_amended_temp_directory
    ⟨some ("/tmp/x".toList), none, fun _ => none,
      fun s => decide (s = "/tmp/x".toList)⟩
    ("/tmp/x".toList) (by decide)

end Windrake
